import Mathlib

/-!
Verification of the protocol-translation and account-failover gateway.

The definitions below are a shallow embedding of the gateway's source:

* `src/format-converter.js` — the tool-id codec (`toOpenAIToolId`,
  `toAnthropicToolId`), the request converter `convertAnthropicToResponsesAPI`
  and the tool-schema sanitizer `sanitizeSchema`;
* `src/thinking-utils.js` — the thinking-block pipeline
  (`restoreThinkingSignatures`, `removeTrailingThinkingBlocks`,
  `reorderAssistantContent`, `processAssistantContent`);
* `src/response-streamer.js` and `src/kilo-streamer.js` — the two stream
  re-encoders, modelled as functions from the list of parsed upstream events
  to the list of emitted Anthropic events;
* `src/account-rotation/*` — the usability predicate, the round-robin and
  sticky selection strategies and the rate-limit helper functions, with the
  in-place mutation of accounts made explicit (each selection returns the
  updated pool);
* the all-rate-limited branch of `handleMessages` in the messages route,
  modelled as a pure per-iteration decision.

Identifier strings are modelled as `List Char` (a JavaScript string is its
character sequence); timestamps and durations are `Int` milliseconds.
Randomness (`crypto.randomBytes(...)` fallbacks) is modelled by passing the
generated random suffix as an explicit argument.
-/

namespace Gateway

/-! ## Tool-ID codec (`src/format-converter.js`, `toOpenAIToolId` / `toAnthropicToolId`)

JavaScript strings are modelled as `List Char`.  `!anthropicId` is truthy
exactly when the string is empty (the id is a string here); the random
12-byte hex fallback is passed in as the explicit argument `rand`. -/

def fcPrefix : List Char := ['f', 'c', '_']

def touluPrefix : List Char := ['t', 'o', 'o', 'l', 'u', '_']

def callPrefix : List Char := ['c', 'a', 'l', 'l', '_']

/-- `anthropicId.replace(/^(call_|toolu_)/, '')`: strip one leading `call_`
or `toolu_` (the two alternatives cannot both match). -/
def stripKnownPrefixes (s : List Char) : List Char :=
  if callPrefix.isPrefixOf s then s.drop 5
  else if touluPrefix.isPrefixOf s then s.drop 6
  else s

/-- `toOpenAIToolId` from `src/format-converter.js`. -/
def toOpenAIToolId (anthropicId : List Char) (rand : List Char) : List Char :=
  if anthropicId = [] then fcPrefix ++ rand
  else if fcPrefix.isPrefixOf anthropicId then anthropicId
  else fcPrefix ++ stripKnownPrefixes anthropicId

/-- `toAnthropicToolId` from `src/format-converter.js`. -/
def toAnthropicToolId (openAIId : List Char) (rand : List Char) : List Char :=
  if openAIId = [] then touluPrefix ++ rand
  else if touluPrefix.isPrefixOf openAIId then openAIId
  else touluPrefix ++ (if fcPrefix.isPrefixOf openAIId then openAIId.drop 3 else openAIId)

/-! ## Content blocks and the thinking-block pipeline (`src/thinking-utils.js`)

A content block is modelled by the fields the pipeline reads.  The flag
`extra` records whether the block carries additional non-whitelisted fields
(such as `cache_control`) that the sanitizers strip; optional string fields
are `Option String` (`none` = the field is absent / `undefined`). -/

inductive Block where
  | text (text : String) (extra : Bool)
  | toolUse (id name input : String) (thoughtSignature : Option String) (extra : Bool)
  | toolResult (toolUseId content : String) (isError : Bool) (extra : Bool)
  | thinking (thinking : String) (signature : Option String) (extra : Bool)
  | redactedThinking (data : Option String) (extra : Bool)
  deriving DecidableEq

/-- `MIN_SIGNATURE_LENGTH` from `src/signature-cache.js`. -/
def MIN_SIGNATURE_LENGTH : Nat := 50

/-- `isThinkingPart`: the source also accepts any object with a `thinking`
field or with `thought === true`; in this model those fields exist only on
the two thinking constructors, so the check is a constructor test. -/
def isThinkingPart : Block → Bool
  | .thinking _ _ _ => true
  | .redactedThinking _ _ => true
  | _ => false

/-- `hasValidSignature`: the signature must be a string of length
`≥ MIN_SIGNATURE_LENGTH`.  A `redacted_thinking` block has no `signature`
field, so it is never validly signed. -/
def hasValidSignature : Block → Bool
  | .thinking _ (some s) _ => MIN_SIGNATURE_LENGTH ≤ s.length
  | _ => false

/-- `sanitizeAnthropicThinkingBlock`: keep only `type`/`thinking`/`signature`
(resp. `type`/`data`), i.e. clear the extra-fields flag. -/
def sanitizeAnthropicThinkingBlock : Block → Block
  | .thinking t sig _ => .thinking t sig false
  | .redactedThinking d _ => .redactedThinking d false
  | b => b

/-- `sanitizeTextBlock`: keep only `type`/`text`. -/
def sanitizeTextBlock : Block → Block
  | .text t _ => .text t false
  | b => b

/-- `sanitizeToolUseBlock`: keep only `type`/`id`/`name`/`input`/`thoughtSignature`. -/
def sanitizeToolUseBlock : Block → Block
  | .toolUse i n inp ts _ => .toolUse i n inp ts false
  | b => b

/-- `restoreThinkingSignatures`: drop `thinking` blocks whose signature is
absent, empty or shorter than `MIN_SIGNATURE_LENGTH`; sanitize the kept ones;
pass every other block through.  (The source's `block.signature &&` truthiness
test is subsumed by the length test, since `"".length = 0 < 50`.) -/
def restoreThinkingSignatures : List Block → List Block
  | [] => []
  | .thinking t (some s) e :: rest =>
      if MIN_SIGNATURE_LENGTH ≤ s.length then
        sanitizeAnthropicThinkingBlock (.thinking t (some s) e) :: restoreThinkingSignatures rest
      else restoreThinkingSignatures rest
  | .thinking _ none _ :: rest => restoreThinkingSignatures rest
  | b :: rest => b :: restoreThinkingSignatures rest

/-- The predicate of the trailing scan in `removeTrailingThinkingBlocks`:
a thinking-part without a valid signature. -/
def trailingUnsigned (b : Block) : Bool :=
  isThinkingPart b && !hasValidSignature b

/-- `removeTrailingThinkingBlocks`: the source scans backwards from the end,
moving `endIndex` left over each unsigned thinking block and stopping at the
first non-thinking or validly signed thinking block, then slices; i.e. it
removes the maximal trailing run of unsigned thinking blocks. -/
def removeTrailingThinkingBlocks (content : List Block) : List Block :=
  (content.reverse.dropWhile trailingUnsigned).reverse

/-- ASCII whitespace, for the model of JavaScript's `String.prototype.trim`. -/
def isWhitespaceChar (c : Char) : Bool :=
  c = ' ' || c = '\t' || c = '\n' || c = '\r'

/-- Model of `text.trim()`: remove leading and trailing whitespace. -/
def jsTrim (s : String) : String :=
  ⟨((s.data.dropWhile isWhitespaceChar).reverse.dropWhile isWhitespaceChar).reverse⟩

/-- The single pass of `reorderAssistantContent`: partition into
(thinking, text, tool_use) groups, sanitizing each group's blocks and
dropping whitespace-only text blocks; unknown block types join the text
group unsanitized. -/
def reorderPartition : List Block → List Block × List Block × List Block
  | [] => ([], [], [])
  | b :: rest =>
      let (ts, xs, us) := reorderPartition rest
      match b with
      | .thinking t sig e =>
          (sanitizeAnthropicThinkingBlock (.thinking t sig e) :: ts, xs, us)
      | .redactedThinking d e =>
          (sanitizeAnthropicThinkingBlock (.redactedThinking d e) :: ts, xs, us)
      | .toolUse i n inp tsg e => (ts, xs, sanitizeToolUseBlock (.toolUse i n inp tsg e) :: us)
      | .text t e =>
          if 0 < (jsTrim t).length then (ts, sanitizeTextBlock (.text t e) :: xs, us)
          else (ts, xs, us)
      | b => (ts, b :: xs, us)

/-- `reorderAssistantContent`: single-element arrays are only sanitized
(when they are thinking blocks); otherwise the three groups are
re-concatenated thinking-then-text-then-tool_use. -/
def reorderAssistantContent (content : List Block) : List Block :=
  match content with
  | [b] =>
      match b with
      | .thinking t sig e => [sanitizeAnthropicThinkingBlock (.thinking t sig e)]
      | .redactedThinking d e => [sanitizeAnthropicThinkingBlock (.redactedThinking d e)]
      | b => [b]
  | content =>
      let (ts, xs, us) := reorderPartition content
      ts ++ xs ++ us

/-- `processAssistantContent`: restore/filter signatures, trim trailing
unsigned thinking blocks, then reorder. -/
def processAssistantContent (content : List Block) : List Block :=
  reorderAssistantContent (removeTrailingThinkingBlocks (restoreThinkingSignatures content))

/-- Position of a block's group in the required order:
thinking blocks (0) before text and unknown blocks (1) before tool_use (2). -/
def blockRank : Block → Nat
  | .thinking _ _ _ => 0
  | .redactedThinking _ _ => 0
  | .toolUse _ _ _ _ _ => 2
  | _ => 1

/-- A 60-character signature used in the concrete examples. -/
def sampleSig60 : String :=
  "sig-01234567890123456789012345678901234567890123456789012345"

theorem sampleSig60_length : sampleSig60.length = 60 := by decide

/-! ## Protocol-A stream events (`message_start … message_stop`)

The two re-encoders are modelled at the level of already-parsed upstream
events: SSE byte framing, `JSON.parse` and malformed-line skipping are the
transport layer.  The constant payload of `message_start` (message id, model,
empty content array, null stop reason) is not repeated in the event model. -/

structure Usage where
  inputTokens : Nat
  outputTokens : Nat
  cacheReadInputTokens : Option Nat
  deriving DecidableEq

inductive StartBlock where
  | text
  | toolUse (id name : String)
  | thinking
  deriving DecidableEq

inductive DeltaPayload where
  | textDelta (s : String)
  | inputJsonDelta (s : String)
  deriving DecidableEq

inductive AEvent where
  | messageStart
  | contentBlockStart (index : Nat) (block : StartBlock)
  | contentBlockDelta (index : Nat) (delta : DeltaPayload)
  | contentBlockStop (index : Nat)
  | messageDelta (stopReason : String) (usage : Usage)
  | messageStop
  deriving DecidableEq

/-- The kind of the currently open content block. -/
inductive CurBlock where
  | text
  | toolUse
  | thinking
  deriving DecidableEq

/-! ## Protocol-B re-encoder (`src/response-streamer.js`, `streamResponsesAPI`) -/

/-- The `item` of a `response.output_item.added` event.  For a
`function_call`, `callId = none` models a falsy `item.call_id` (the source
falls back to `item.id`). -/
inductive RespItem where
  | message (id : String)
  | functionCall (callId : Option String) (id name : String)
  | reasoning (id : String)
  | other
  deriving DecidableEq

/-- A parsed upstream event of the Responses API stream.  `completed` carries
the usage counts (each `|| 0`-defaulted by the source). -/
inductive RespEvent where
  | completed (inputTokens outputTokens cacheRead : Nat)
  | itemAdded (item : RespItem)
  | textDelta (delta : String)
  | argsDelta (delta : String)
  | argsDone
  | itemDone
  | otherEvent
  deriving DecidableEq

structure RespState where
  hasStart : Bool
  blockIndex : Nat
  cur : Option CurBlock
  stopReason : String
  usage : Usage
  pendingArgs : String
  deriving DecidableEq

def initRespState : RespState :=
  ⟨false, 0, none, "end_turn", ⟨0, 0, none⟩, ""⟩

/-- One upstream event of `streamResponsesAPI`: returns the new state and the
Anthropic events yielded for it.  `delta &&` truthiness means an empty-string
delta is ignored.  An `output_item.added` of an unknown item type closes the
previous block but starts none and leaves `currentBlockType` stale, exactly
as the source does. -/
def respStep (s : RespState) : RespEvent → RespState × List AEvent
  | .completed i o c => ({ s with usage := ⟨i, o, some c⟩ }, [])
  | .itemAdded item =>
      let startOut : List AEvent := if s.hasStart then [] else [.messageStart]
      let s1 : RespState := { s with hasStart := true }
      let closeOut : List AEvent :=
        match s1.cur with
        | some _ => [.contentBlockStop s1.blockIndex]
        | none => []
      let s2 : RespState :=
        match s1.cur with
        | some _ => { s1 with blockIndex := s1.blockIndex + 1 }
        | none => s1
      match item with
      | .message _ =>
          ({ s2 with cur := some .text },
            startOut ++ closeOut ++ [.contentBlockStart s2.blockIndex .text])
      | .functionCall callId id name =>
          let bid := match callId with | some c => c | none => id
          ({ s2 with cur := some .toolUse, stopReason := "tool_use" },
            startOut ++ closeOut ++ [.contentBlockStart s2.blockIndex (.toolUse bid name)])
      | .reasoning _ =>
          ({ s2 with cur := some .thinking },
            startOut ++ closeOut ++ [.contentBlockStart s2.blockIndex .thinking])
      | .other => (s2, startOut ++ closeOut)
  | .textDelta d =>
      if d ≠ "" ∧ s.cur = some .text then
        (s, [.contentBlockDelta s.blockIndex (.textDelta d)])
      else (s, [])
  | .argsDelta d =>
      if d ≠ "" ∧ s.cur = some .toolUse then
        ({ s with pendingArgs := s.pendingArgs ++ d },
          [.contentBlockDelta s.blockIndex (.inputJsonDelta d)])
      else (s, [])
  | .argsDone => (s, [])
  | .itemDone => (s, [])
  | .otherEvent => (s, [])

def runResp : RespState → List RespEvent → RespState × List AEvent
  | s, [] => (s, [])
  | s, e :: rest =>
      let (s1, out) := respStep s e
      let (s2, outs) := runResp s1 rest
      (s2, out ++ outs)

/-- The code after the read loop of `streamResponsesAPI`: the synthetic empty
text block when nothing was emitted, the close of a still-open block, and the
final `message_delta` / `message_stop`. -/
def respEpilogue (s : RespState) : List AEvent :=
  (if s.hasStart then
      match s.cur with
      | some _ => [.contentBlockStop s.blockIndex]
      | none => []
    else
      [.messageStart, .contentBlockStart 0 .text,
        .contentBlockDelta 0 (.textDelta ""), .contentBlockStop 0]) ++
  [.messageDelta s.stopReason s.usage, .messageStop]

def streamResponsesAPI (events : List RespEvent) : List AEvent :=
  let (s, out) := runResp initRespState events
  out ++ respEpilogue s

/-! ## Protocol-C re-encoder (`src/kilo-streamer.js`, `streamOpenAIChat`) -/

/-- One entry of `delta.tool_calls`.  `name = none` models a falsy
`toolCall.function?.name` (the source falls back to `'tool'`);
`args` is `toolCall.function?.arguments || ''`. -/
structure ToolCallDelta where
  id : String
  name : Option String
  args : String
  deriving DecidableEq

/-- `choices[0].delta`: `content = ""` models a falsy `delta.content`;
`toolCalls = none` models a `delta.tool_calls` that is not an array. -/
structure ChatDelta where
  content : String
  toolCalls : Option (List ToolCallDelta)
  deriving DecidableEq

/-- One parsed chunk: optional usage (`prompt_tokens`, `completion_tokens`)
and `choices[0]` with its delta and `finish_reason`. -/
structure ChatChunk where
  usage : Option (Nat × Nat)
  choice : Option (ChatDelta × Option String)
  deriving DecidableEq

structure ChatState where
  hasStart : Bool
  blockIndex : Nat
  cur : Option CurBlock
  curToolId : Option String
  pendingToolArgs : List (String × String)
  stopReason : String
  usage : Usage
  deriving DecidableEq

def initChatState : ChatState :=
  ⟨false, 0, none, none, [], "end_turn", ⟨0, 0, none⟩⟩

/-- `toolCall.function?.name || 'tool'`. -/
def toolNameOrDefault : Option String → String
  | some n => if n = "" then "tool" else n
  | none => "tool"

def assocGet (m : List (String × String)) (k : String) : Option String :=
  (m.find? (fun p => p.1 = k)).map Prod.snd

def assocSet (m : List (String × String)) (k v : String) : List (String × String) :=
  if (m.find? (fun p => p.1 = k)).isSome then
    m.map (fun p => if p.1 = k then (k, v) else p)
  else m ++ [(k, v)]

/-- One iteration of the `delta.tool_calls` loop in `handleDelta`. -/
def handleToolCall (s : ChatState) (tc : ToolCallDelta) : ChatState × List AEvent :=
  let startOut : List AEvent := if s.hasStart then [] else [.messageStart]
  let s1 : ChatState := { s with hasStart := true }
  if s1.cur ≠ some CurBlock.toolUse ∨ s1.curToolId ≠ some tc.id then
    let closeOut : List AEvent :=
      match s1.cur with
      | some _ => [.contentBlockStop s1.blockIndex]
      | none => []
    let s2 : ChatState :=
      match s1.cur with
      | some _ => { s1 with blockIndex := s1.blockIndex + 1 }
      | none => s1
    let s3 : ChatState :=
      { s2 with cur := some .toolUse, curToolId := some tc.id, stopReason := "tool_use" }
    let openOut : List AEvent :=
      [.contentBlockStart s2.blockIndex (.toolUse tc.id (toolNameOrDefault tc.name))]
    if tc.args ≠ "" then
      ({ s3 with pendingToolArgs :=
            assocSet s3.pendingToolArgs tc.id ((assocGet s3.pendingToolArgs tc.id).getD "" ++ tc.args) },
        startOut ++ closeOut ++ openOut ++
          [.contentBlockDelta s3.blockIndex (.inputJsonDelta tc.args)])
    else (s3, startOut ++ closeOut ++ openOut)
  else
    if tc.args ≠ "" then
      ({ s1 with pendingToolArgs :=
            assocSet s1.pendingToolArgs tc.id ((assocGet s1.pendingToolArgs tc.id).getD "" ++ tc.args) },
        startOut ++ [.contentBlockDelta s1.blockIndex (.inputJsonDelta tc.args)])
    else (s1, startOut)

def handleToolCalls : ChatState → List ToolCallDelta → ChatState × List AEvent
  | s, [] => (s, [])
  | s, tc :: rest =>
      let (s1, out) := handleToolCall s tc
      let (s2, outs) := handleToolCalls s1 rest
      (s2, out ++ outs)

/-- `handleDelta`: the `delta.content` branch, then the `delta.tool_calls`
loop. -/
def handleDelta (s : ChatState) (d : ChatDelta) : ChatState × List AEvent :=
  let (s1, out1) :=
    if d.content ≠ "" then
      if ¬s.hasStart then
        ({ s with hasStart := true, cur := some .text, curToolId := none },
          [AEvent.messageStart, .contentBlockStart s.blockIndex .text,
            .contentBlockDelta s.blockIndex (.textDelta d.content)])
      else if s.cur ≠ some CurBlock.text then
        ({ s with blockIndex := s.blockIndex + 1, cur := some .text, curToolId := none },
          [AEvent.contentBlockStop s.blockIndex,
            .contentBlockStart (s.blockIndex + 1) .text,
            .contentBlockDelta (s.blockIndex + 1) (.textDelta d.content)])
      else (s, [AEvent.contentBlockDelta s.blockIndex (.textDelta d.content)])
    else (s, [])
  match d.toolCalls with
  | some tcs =>
      let (s2, out2) := handleToolCalls s1 tcs
      (s2, out1 ++ out2)
  | none => (s1, out1)

/-- One parsed chunk of `streamOpenAIChat`: record usage, run `handleDelta`
on `choices[0].delta`, then map a truthy `finish_reason`
(`'tool_calls' → tool_use`, anything else → `end_turn`). -/
def chunkStep (s : ChatState) (c : ChatChunk) : ChatState × List AEvent :=
  let s0 : ChatState :=
    match c.usage with
    | some (p, q) => { s with usage := ⟨p, q, none⟩ }
    | none => s
  match c.choice with
  | none => (s0, [])
  | some (d, fin) =>
      let (s1, out) := handleDelta s0 d
      match fin with
      | some fr =>
          if fr ≠ "" then
            ({ s1 with stopReason := if fr = "tool_calls" then "tool_use" else "end_turn" }, out)
          else (s1, out)
      | none => (s1, out)

def runChat : ChatState → List ChatChunk → ChatState × List AEvent
  | s, [] => (s, [])
  | s, c :: rest =>
      let (s1, out) := chunkStep s c
      let (s2, outs) := runChat s1 rest
      (s2, out ++ outs)

/-- The code after the read loop of `streamOpenAIChat`. -/
def chatEpilogue (s : ChatState) : List AEvent :=
  (if s.hasStart then
      match s.cur with
      | some _ => [.contentBlockStop s.blockIndex]
      | none => []
    else
      [.messageStart, .contentBlockStart s.blockIndex .text,
        .contentBlockDelta s.blockIndex (.textDelta ""), .contentBlockStop s.blockIndex]) ++
  [.messageDelta s.stopReason s.usage, .messageStop]

def streamOpenAIChat (chunks : List ChatChunk) : List AEvent :=
  let (s, out) := runChat initChatState chunks
  out ++ chatEpilogue s

/-- Is this upstream event a content item (`response.output_item.added`)? -/
def respHasContentItem : RespEvent → Bool
  | .itemAdded _ => true
  | _ => false

/-- Is this upstream event an added `function_call` item? -/
def respFnCallAdded : RespEvent → Bool
  | .itemAdded (.functionCall _ _ _) => true
  | _ => false

/-- Does this delta carry content (truthy `delta.content` or at least one
`tool_calls` entry)?  Exactly these make `streamOpenAIChat` emit content. -/
def deltaHasContent (d : ChatDelta) : Bool :=
  (d.content != "") || !(d.toolCalls.getD []).isEmpty

/-- Does this chunk carry content in its `choices[0].delta`? -/
def chunkHasContent (c : ChatChunk) : Bool :=
  match c.choice with
  | some (d, _) => deltaHasContent d
  | none => false

/-- Does this chunk carry at least one `tool_calls` entry? -/
def chunkHasToolEntry (c : ChatChunk) : Bool :=
  match c.choice with
  | some (d, _) => ¬(d.toolCalls.getD []).isEmpty
  | none => false

/-- Does this chunk carry a truthy `finish_reason`? -/
def chunkHasFinish (c : ChatChunk) : Bool :=
  match c.choice with
  | some (_, some fr) => fr ≠ ""
  | _ => false

/-- Is this Anthropic event the opening of a tool_use content block? -/
def opensToolBlock : AEvent → Bool
  | .contentBlockStart _ (.toolUse _ _) => true
  | _ => false


/-! ## JSON values and the schema sanitizer (`src/format-converter.js`, `sanitizeSchema`)

JSON is modelled with mutual inductives (`JVal` / `JArr` / `JObj`) so that
the sanitizer is plain structural recursion.  A `JObj` is the ordered field
list of a JavaScript object (keys unique, `Object.entries` order). -/

mutual
inductive JVal where
  | str (s : String)
  | num (n : Int)
  | bool (b : Bool)
  | null
  | arr (xs : JArr)
  | obj (fs : JObj)

inductive JArr where
  | nil
  | cons (hd : JVal) (tl : JArr)

inductive JObj where
  | nil
  | cons (key : String) (val : JVal) (tl : JObj)
end

mutual
/-- Structural equality test for `JVal` (hand-written: the derived mutual
instance is far larger). -/
def JVal.beq : JVal → JVal → Bool
  | .str a, .str b => a == b
  | .num a, .num b => a == b
  | .bool a, .bool b => a == b
  | .null, .null => true
  | .arr a, .arr b => JArr.beq a b
  | .obj a, .obj b => JObj.beq a b
  | _, _ => false

def JArr.beq : JArr → JArr → Bool
  | .nil, .nil => true
  | .cons a as, .cons b bs => JVal.beq a b && JArr.beq as bs
  | _, _ => false

def JObj.beq : JObj → JObj → Bool
  | .nil, .nil => true
  | .cons k v tl, .cons l w tl2 => k == l && JVal.beq v w && JObj.beq tl tl2
  | _, _ => false
end

/-- Soundness of the equality test (stated over a size bound so the three
mutual components can be proved by one strong induction). -/
def beqSound :
    ∀ n : Nat,
      (∀ a b : JVal, sizeOf a ≤ n → (JVal.beq a b = true ↔ a = b)) ∧
      (∀ a b : JArr, sizeOf a ≤ n → (JArr.beq a b = true ↔ a = b)) ∧
      (∀ a b : JObj, sizeOf a ≤ n → (JObj.beq a b = true ↔ a = b)) := by
  intro n
  induction n using Nat.strong_induction_on with
  | _ n ih =>
      refine ⟨?_, ?_, ?_⟩
      · intro a b hn
        cases a with
        | str s => cases b <;> simp [JVal.beq, beq_iff_eq]
        | num m => cases b <;> simp [JVal.beq, beq_iff_eq]
        | bool v => cases b <;> simp [JVal.beq, beq_iff_eq]
        | null => cases b <;> simp [JVal.beq]
        | arr xs =>
            have hsz := JVal.arr.sizeOf_spec xs
            have hs : sizeOf xs < n := by omega
            cases b <;> simp [JVal.beq, (ih (sizeOf xs) hs).2.1 xs _ (le_refl _)]
        | obj fs =>
            have hsz := JVal.obj.sizeOf_spec fs
            have hs : sizeOf fs < n := by omega
            cases b <;> simp [JVal.beq, (ih (sizeOf fs) hs).2.2 fs _ (le_refl _)]
      · intro a b hn
        cases a with
        | nil => cases b <;> simp [JArr.beq]
        | cons x xs =>
            have hsz := JArr.cons.sizeOf_spec x xs
            have hx : sizeOf x < n := by omega
            have hxs : sizeOf xs < n := by omega
            cases b <;>
              simp [JArr.beq, (ih (sizeOf x) hx).1 x _ (le_refl _),
                (ih (sizeOf xs) hxs).2.1 xs _ (le_refl _)]
      · intro a b hn
        cases a with
        | nil => cases b <;> simp [JObj.beq]
        | cons k v tl =>
            have hsz := JObj.cons.sizeOf_spec k v tl
            have hv : sizeOf v < n := by omega
            have ht : sizeOf tl < n := by omega
            cases b <;>
              simp [JObj.beq, beq_iff_eq, (ih (sizeOf v) hv).1 v _ (le_refl _),
                (ih (sizeOf tl) ht).2.2 tl _ (le_refl _), and_assoc]

instance : DecidableEq JVal := fun a b =>
  decidable_of_iff (JVal.beq a b = true) ((beqSound (sizeOf a)).1 a b (le_refl _))

instance : DecidableEq JArr := fun a b =>
  decidable_of_iff (JArr.beq a b = true) ((beqSound (sizeOf a)).2.1 a b (le_refl _))

instance : DecidableEq JObj := fun a b =>
  decidable_of_iff (JObj.beq a b = true) ((beqSound (sizeOf a)).2.2 a b (le_refl _))

/-- First binding of a key, if any (JS property lookup). -/
def JObj.getVal : JObj → String → Option JVal
  | .nil, _ => none
  | .cons k v tl, key => if k = key then some v else tl.getVal key

/-- JS property assignment `result[k] = v`: overwrite in place if the key
exists, else append. -/
def JObj.setField : JObj → String → JVal → JObj
  | .nil, k, v => .cons k v .nil
  | .cons k' v' tl, k, v =>
      if k' = k then .cons k v tl else .cons k' v' (tl.setField k v)

/-- Field lookup on an object value. -/
def JVal.getField : JVal → String → Option JVal
  | .obj fs, k => fs.getVal k
  | _, _ => none

/-- JavaScript truthiness of a JSON value. -/
def jTruthy : JVal → Bool
  | .str s => s != ""
  | .num n => n != 0
  | .bool b => b
  | .null => false
  | .arr _ => true
  | .obj _ => true

def jTruthyOpt : Option JVal → Bool
  | some v => jTruthy v
  | none => false

/-- The keyword list skipped by `sanitizeSchema`. -/
def unsupportedKeys : List String :=
  ["$schema", "$id", "$ref", "$defs", "$comment",
    "additionalItems", "definitions", "examples",
    "minLength", "maxLength", "pattern", "format",
    "minItems", "maxItems", "minimum", "maximum",
    "exclusiveMinimum", "exclusiveMaximum",
    "allOf", "anyOf", "oneOf", "not"]

/-- `value.filter(t => t !== 'null')` on a `type` union. -/
def filterNonNullTypes : JArr → JArr
  | .nil => .nil
  | .cons x tl =>
      if x = JVal.str "null" then filterNonNullTypes tl
      else .cons x (filterNonNullTypes tl)

def JArr.headOr : JArr → JVal → JVal
  | .nil, d => d
  | .cons x _, _ => x

/-- Second fix-up after the key loop: give an `object`-typed result an
empty `properties` map when it has none (a truthy one). -/
def finalizeProps (r1 : JObj) : JObj :=
  if r1.getVal "type" = some (.str "object") ∧ ¬jTruthyOpt (r1.getVal "properties") then
    r1.setField "properties" (.obj .nil)
  else r1

/-- The fix-ups after the key loop of `sanitizeSchema`: default the `type`
to `object` when it is missing or falsy, then apply the `properties`
fix-up. -/
def finalizeSchema (r : JObj) : JObj :=
  finalizeProps (if jTruthyOpt (r.getVal "type") then r
    else r.setField "type" (.str "object"))

mutual
/-- `sanitizeSchema`: non-objects (including `null`) collapse to
`{type:'object'}`; an array input runs the key loop over its numeric
`Object.entries` keys, none of which match any branch, so it finalizes an
empty result. -/
def sanitizeSchema : JVal → JVal
  | .obj fs => .obj (finalizeSchema (sanitizeFields fs .nil))
  | .arr _ => .obj (finalizeSchema .nil)
  | _ => .obj (.cons "type" (.str "object") .nil)
termination_by structural v => v

/-- The `for (const [key, value] of Object.entries(schema))` loop.  One
iteration's field logic is written inline (with the recursive
`sanitizeSchema(value)` call sites unfolded one step on their matched
constructor) so that the mutual recursion is structural; `sanitizeField`
below restates the iteration in the source's own shape and is proved equal
to this body. -/
def sanitizeFields : JObj → JObj → JObj
  | .nil, result => result
  | .cons k v tl, result => sanitizeFields tl
      (if k = "const" then result.setField "enum" (.arr (.cons v .nil))
      else if unsupportedKeys.contains k then result
      else if k = "additionalProperties" then result
      else if k = "type" then
        match v with
        | .arr xs => result.setField "type" ((filterNonNullTypes xs).headOr (.str "string"))
        | v => result.setField "type" v
      else if k = "properties" then
        match v with
        | .obj fs => result.setField "properties" (.obj (sanitizeProps fs))
        | .arr xs => result.setField "properties" (.obj (sanitizeIdxProps 0 xs))
        | _ => result
      else if k = "items" then
        match v with
        | .arr xs => result.setField "items" (.arr (sanitizeItems xs))
        | .obj fs => result.setField "items" (.obj (finalizeSchema (sanitizeFields fs .nil)))
        | .null => result.setField "items" (.obj (.cons "type" (.str "object") .nil))
        | v => result.setField "items" v
      else if k = "required" then
        match v with
        | .arr xs => result.setField "required" (.arr xs)
        | _ => result
      else if k = "enum" then
        match v with
        | .arr xs => result.setField "enum" (.arr xs)
        | _ => result
      else if k = "description" ∨ k = "title" then result.setField k v
      else result)
termination_by structural fs _ => fs

/-- Recursive sanitization of the values of a `properties` object. -/
def sanitizeProps : JObj → JObj
  | .nil => .nil
  | .cons k v tl => .cons k (sanitizeSchema v) (sanitizeProps tl)
termination_by structural fs => fs

/-- Recursive sanitization of an array-valued `properties` (JS
`Object.entries` yields the numeric index keys). -/
def sanitizeIdxProps (i : Nat) : JArr → JObj
  | .nil => .nil
  | .cons x tl => .cons (toString i) (sanitizeSchema x) (sanitizeIdxProps (i + 1) tl)
termination_by structural xs => xs

/-- Recursive sanitization of an array-valued `items`. -/
def sanitizeItems : JArr → JArr
  | .nil => .nil
  | .cons x tl => .cons (sanitizeSchema x) (sanitizeItems tl)
termination_by structural xs => xs
end

/-- One iteration of the key loop, with the source's branch order.  An
`additionalProperties` key is dropped whether or not its value is a boolean
(a non-boolean value matches no later branch either); `required` and `enum`
keys with non-array values likewise fall through to the final name check and
are dropped.  Definitionally equal, branch by branch, to the body inlined in
`sanitizeFields` (theorem `sanitizeFields_cons`). -/
def sanitizeField (k : String) (v : JVal) (result : JObj) : JObj :=
  if k = "const" then result.setField "enum" (.arr (.cons v .nil))
  else if unsupportedKeys.contains k then result
  else if k = "additionalProperties" then result
  else if k = "type" then
    match v with
    | .arr xs => result.setField "type" ((filterNonNullTypes xs).headOr (.str "string"))
    | v => result.setField "type" v
  else if k = "properties" then
    match v with
    | .obj fs => result.setField "properties" (.obj (sanitizeProps fs))
    | .arr xs => result.setField "properties" (.obj (sanitizeIdxProps 0 xs))
    | _ => result
  else if k = "items" then
    match v with
    | .arr xs => result.setField "items" (.arr (sanitizeItems xs))
    | .obj fs => result.setField "items" (sanitizeSchema (.obj fs))
    | .null => result.setField "items" (sanitizeSchema .null)
    | v => result.setField "items" v
  else if k = "required" then
    match v with
    | .arr xs => result.setField "required" (.arr xs)
    | _ => result
  else if k = "enum" then
    match v with
    | .arr xs => result.setField "enum" (.arr xs)
    | _ => result
  else if k = "description" ∨ k = "title" then result.setField k v
  else result

mutual
/-- No unsupported keyword appears at a schema-keyword position, recursively
through `properties` and `items` (the recursion scope of the claim:
`enum`/`required` values and property names are data, not keywords). -/
def schemaKeysOk : JVal → Bool
  | .obj fs => fieldsKeysOk fs
  | _ => true
termination_by structural v => v

/-- One field's check is written inline (with the single-step unfoldings of
the `properties`/`items` value checks on their matched constructors) so the
mutual recursion is structural; `fieldOk` below restates it in wrapper form
(theorem `fieldsKeysOk_cons`). -/
def fieldsKeysOk : JObj → Bool
  | .nil => true
  | .cons k v tl =>
      (!unsupportedKeys.contains k &&
        (if k = "properties" then
            match v with
            | .obj fs => propsFieldsOk fs
            | _ => true
          else if k = "items" then
            match v with
            | .arr xs => itemsArrOk xs
            | .obj fs => fieldsKeysOk fs
            | _ => true
          else true)) && fieldsKeysOk tl
termination_by structural fs => fs

def propsFieldsOk : JObj → Bool
  | .nil => true
  | .cons _ v tl => schemaKeysOk v && propsFieldsOk tl
termination_by structural fs => fs

def itemsArrOk : JArr → Bool
  | .nil => true
  | .cons x tl => schemaKeysOk x && itemsArrOk tl
termination_by structural xs => xs
end

/-- A `properties` value is a map of sub-schemas. -/
def propsKeysOk : JVal → Bool
  | .obj fs => propsFieldsOk fs
  | _ => true

/-- An `items` value is an array of sub-schemas or a single sub-schema. -/
def itemsKeysOk : JVal → Bool
  | .arr xs => itemsArrOk xs
  | v => schemaKeysOk v

/-- One key is checked: no unsupported keyword, and the `properties` and
`items` values are checked recursively. -/
def fieldOk (k : String) (v : JVal) : Bool :=
  !unsupportedKeys.contains k &&
  (if k = "properties" then propsKeysOk v
    else if k = "items" then itemsKeysOk v
    else true)

/-! ## Accounts, rate limits and rotation strategies (`src/account-rotation/*`)

Timestamps are `Int` milliseconds; `Date.now()` is the explicit `now`
argument.  A JS `null`/`undefined` numeric field is `none`; where the source
compares such a field numerically, `null` coerces to `0` (`Option.getD 0`).
The in-place mutation `account.lastUsed = Date.now()` is modelled by
returning the updated pool. -/

structure RateLimitEntry where
  isRateLimited : Bool
  resetTime : Option Int
  actualResetMs : Option Int
  deriving DecidableEq

structure Account where
  email : String
  isInvalid : Bool
  enabled : Option Bool
  cooldownUntil : Option Int
  modelRateLimits : List (String × RateLimitEntry)
  lastUsed : Option Int
  deriving DecidableEq

/-- `account.modelRateLimits?.[modelId]`. -/
def lookupLimit (m : List (String × RateLimitEntry)) (modelId : String) :
    Option RateLimitEntry :=
  (m.find? (fun p => p.1 = modelId)).map Prod.snd

/-- `isAccountCoolingDown` (rate-limits.js): `!account?.cooldownUntil`
treats both `null` and `0` as not cooling down. -/
def isAccountCoolingDown (now : Int) (a : Account) : Bool :=
  match a.cooldownUntil with
  | none => false
  | some c => (c != 0) && decide (now < c)

/-- `getCooldownRemaining` (rate-limits.js). -/
def getCooldownRemaining (now : Int) (a : Account) : Int :=
  match a.cooldownUntil with
  | none => 0
  | some c => if c = 0 then 0 else (if 0 < c - now then c - now else 0)

/-- `BaseStrategy.isAccountUsable`. -/
def isAccountUsable (now : Int) (a : Account) (modelId : String) : Bool :=
  if a.isInvalid then false
  else if a.enabled = some false then false
  else if isAccountCoolingDown now a then false
  else if modelId ≠ "" then
    match lookupLimit a.modelRateLimits modelId with
    | some l => !(l.isRateLimited && decide (now < l.resetTime.getD 0))
    | none => true
  else true

/-- `rateLimit?.isRateLimited && rateLimit.resetTime > Date.now()` for one
account. -/
def accountRateLimitedFor (now : Int) (modelId : String) (a : Account) : Bool :=
  match lookupLimit a.modelRateLimits modelId with
  | some l => l.isRateLimited && decide (now < l.resetTime.getD 0)
  | none => false

/-- `isAllRateLimited` (rate-limits.js): an empty pool counts as
all-rate-limited; otherwise every account (invalid ones included) must have
an active rate-limit entry for the model. -/
def isAllRateLimited (now : Int) (accounts : List Account) (modelId : String) : Bool :=
  if accounts.isEmpty then true
  else accounts.all (accountRateLimitedFor now modelId)

/-- The filter of `getAvailableAccounts` (rate-limits.js); note it does not
consult `enabled`. -/
def availableFilter (now : Int) (modelId : String) (a : Account) : Bool :=
  if a.isInvalid then false
  else if isAccountCoolingDown now a then false
  else match lookupLimit a.modelRateLimits modelId with
    | some l => !l.isRateLimited || decide (l.resetTime.getD 0 ≤ now)
    | none => true

def getAvailableAccounts (now : Int) (accounts : List Account) (modelId : String) :
    List Account :=
  if accounts.isEmpty then [] else accounts.filter (availableFilter now modelId)

/-- Does the candidate wait `w` lower the running minimum (`none` =
`Infinity`)? -/
def ltOpt (w : Int) : Option Int → Bool
  | none => true
  | some m => decide (w < m)

/-- The scan loop of `getMinWaitTimeMs` over the pool, with the running
minimum threaded through. -/
def minWaitFold (now : Int) (modelId : String) : List Account → Option Int → Option Int
  | [], acc => acc
  | a :: rest, acc =>
      if a.isInvalid then minWaitFold now modelId rest acc
      else
        let cd := getCooldownRemaining now a
        let acc1 := if 0 < cd ∧ ltOpt cd acc then some cd else acc
        let acc2 :=
          match lookupLimit a.modelRateLimits modelId with
          | some l =>
              if l.isRateLimited ∧ now < l.resetTime.getD 0 then
                if ltOpt (l.resetTime.getD 0 - now) acc1 then some (l.resetTime.getD 0 - now)
                else acc1
              else acc1
          | none => acc1
        minWaitFold now modelId rest acc2

/-- `getMinWaitTimeMs` (rate-limits.js). -/
def getMinWaitTimeMs (now : Int) (accounts : List Account) (modelId : String) : Int :=
  if accounts.isEmpty then 0
  else if !(getAvailableAccounts now accounts modelId).isEmpty then 0
  else match minWaitFold now modelId accounts none with
    | none => 0
    | some m => m

/-- Result of a strategy's `selectAccount`: the selected account is
identified by its pool index (`account: null` = `none`). -/
structure SelectResult where
  selected : Option Nat
  index : Nat
  waitMs : Int

/-- Usability of the account at pool index `j`. -/
def usableIdx (now : Int) (accounts : List Account) (modelId : String) (j : Nat) : Bool :=
  match accounts.get? j with
  | some a => isAccountUsable now a modelId
  | none => false

/-- The wrapped index sequence `(start + i) % len` for `i < len` scanned by
both strategies. -/
def scanList (start len : Nat) : List Nat :=
  (List.range len).map (fun i => (start + i) % len)

/-- `account.lastUsed = Date.now()` on the account at index `k`. -/
def setLastUsed (accounts : List Account) (k : Nat) (now : Int) : List Account :=
  match accounts.get? k with
  | some a => accounts.set k { a with lastUsed := some now }
  | none => accounts

/-- `RoundRobinStrategy.selectAccount`: returns the result, the new cursor
and the updated pool. -/
def rrSelectAccount (cursor : Nat) (now : Int) (accounts : List Account)
    (modelId : String) : SelectResult × Nat × List Account :=
  if accounts.length = 0 then (⟨none, 0, 0⟩, cursor, accounts)
  else
    let c := if cursor ≥ accounts.length then 0 else cursor
    let start := (c + 1) % accounts.length
    match (scanList start accounts.length).find? (usableIdx now accounts modelId) with
    | some k => (⟨some k, k, 0⟩, k, setLastUsed accounts k now)
    | none => (⟨none, c, 0⟩, c, accounts)

/-- `StickyStrategy.#shouldWaitForAccount`. -/
def stickyShouldWait (now : Int) (a : Account) (modelId : String) : Bool × Int :=
  if a.isInvalid then (false, 0)
  else if a.enabled = some false then (false, 0)
  else if modelId ≠ "" then
    match lookupLimit a.modelRateLimits modelId with
    | some l =>
        if l.isRateLimited && decide (now < l.resetTime.getD 0) then
          if l.resetTime.getD 0 - now ≤ 120000 then (true, l.resetTime.getD 0 - now)
          else (false, 0)
        else (false, 0)
    | none => (false, 0)
  else (false, 0)

/-- `StickyStrategy.#pickNext`: first usable index after the current one,
wrapping, skipping the current index itself. -/
def stickyPickNext (now : Int) (accounts : List Account) (clamped : Nat)
    (modelId : String) : Option Nat :=
  (scanList ((clamped + 1) % accounts.length) accounts.length).find?
    (fun j => decide (j ≠ clamped) && usableIdx now accounts modelId j)

/-- The indices collected by `BaseStrategy.getUsableAccounts`. -/
def usableIndices (now : Int) (accounts : List Account) (modelId : String) : List Nat :=
  (List.range accounts.length).filter (usableIdx now accounts modelId)

/-- `StickyStrategy.selectAccount`: `currentIndex` comes from the caller's
options, `stateIndex` is the strategy's own `currentIndex` field (updated
only when `#pickNext` switches accounts).  Returns the result, the new
strategy index and the updated pool. -/
def stickySelectAccount (currentIndex stateIndex : Nat) (now : Int)
    (accounts : List Account) (modelId : String) :
    SelectResult × Nat × List Account :=
  if accounts.length = 0 then (⟨none, currentIndex, 0⟩, stateIndex, accounts)
  else
    let clamped := min currentIndex (accounts.length - 1)
    match accounts.get? clamped with
    | none => (⟨none, clamped, 0⟩, stateIndex, accounts)
    | some cur =>
        if isAccountUsable now cur modelId then
          (⟨some clamped, clamped, 0⟩, stateIndex, setLastUsed accounts clamped now)
        else
          match (if usableIndices now accounts modelId ≠ [] then
              stickyPickNext now accounts clamped modelId else none) with
          | some k => (⟨some k, k, 0⟩, k, setLastUsed accounts k now)
          | none =>
              let sw := stickyShouldWait now cur modelId
              if sw.1 ∧ sw.2 ≤ 120000 then (⟨none, clamped, sw.2⟩, stateIndex, accounts)
              else (⟨none, clamped, 0⟩, stateIndex, accounts)

def MAX_WAIT_BEFORE_ERROR_MS : Int := 120000

/-- Outcome of the all-rate-limited check at the top of one retry iteration
of `handleMessages`. -/
inductive IterDecision where
  | failResourceExhausted (minWaitMs : Int)
  | sleepRetry (sleepMs : Int) (attemptConsumed : Bool)
  | proceed
  deriving DecidableEq

/-- The all-rate-limited branch of a `handleMessages` retry iteration
(routes/messages): when every account is rate-limited for the model, fail as
resource-exhausted if the minimum wait exceeds the 120s ceiling, else sleep
`minWait + 500` ms and retry with `attempt--` (the attempt is not consumed);
otherwise proceed to account selection. -/
def messagesIterationDecision (now : Int) (accounts : List Account)
    (modelId : String) : IterDecision :=
  if isAllRateLimited now accounts modelId then
    let minWait := getMinWaitTimeMs now accounts modelId
    if minWait > MAX_WAIT_BEFORE_ERROR_MS then .failResourceExhausted minWait
    else .sleepRetry (minWait + 500) false
  else .proceed

/-- The multiset of candidate waits `getMinWaitTimeMs` minimizes over:
for each non-invalid account, its positive cooldown remainder and its
active rate-limit wait for the model. -/
def waitsOf (now : Int) (modelId : String) : List Account → List Int
  | [] => []
  | a :: rest =>
      if a.isInvalid then waitsOf now modelId rest
      else
        (if 0 < getCooldownRemaining now a then [getCooldownRemaining now a] else []) ++
        (match lookupLimit a.modelRateLimits modelId with
          | some l =>
              if l.isRateLimited ∧ now < l.resetTime.getD 0 then [l.resetTime.getD 0 - now]
              else []
          | none => []) ++ waitsOf now modelId rest

/-- Generic running-minimum fold (the shape of the `minWait` loop). -/
def minFoldOpt (acc : Option Int) (l : List Int) : Option Int :=
  l.foldl (fun b w => if ltOpt w b then some w else b) acc

/-- Example pool for the rate-limit scenarios: three accounts rate-limited
for model `"m"` with 10s, 40s and 90s remaining at `now = 1000000`. -/
def examplePool3 : List Account :=
  [{ email := "a", isInvalid := false, enabled := none, cooldownUntil := none,
      modelRateLimits := [("m", ⟨true, some 1010000, some 10000⟩)], lastUsed := none },
    { email := "b", isInvalid := false, enabled := none, cooldownUntil := none,
      modelRateLimits := [("m", ⟨true, some 1040000, some 40000⟩)], lastUsed := none },
    { email := "c", isInvalid := false, enabled := none, cooldownUntil := none,
      modelRateLimits := [("m", ⟨true, some 1090000, some 90000⟩)], lastUsed := none }]

/-! ## Request conversion (`src/format-converter.js`, `convertAnthropicToResponsesAPI`)

A JS string field that may be absent is `Option String`; `x || d` on a
string is `none`/`""` ↦ `d`.  The random hex fallback of the tool-id codec
is the explicit `rand` argument (all fallbacks in one conversion draw the
same suffix).  A `tool_result`'s `content` and a `tool_use`'s `input` are
modelled as the strings the source's first branch passes through; the
signature cache writes inside `convertAssistantContentToOpenAI` are side
effects on the cache only and do not alter the returned arrays, so they do
not appear. -/

/-- A `system` prompt: a bare string or an array of content blocks. -/
inductive SystemField where
  | str (s : String)
  | arr (blocks : List Block)

/-- A message's `content`: a string, an array of blocks, or any other value
(which both content converters ignore). -/
inductive MsgContent where
  | str (s : String)
  | blocks (bs : List Block)
  | other

structure Msg where
  role : String
  content : MsgContent

/-- `extractSystemPrompt`: `undefined`/`""` and non-string, non-array values
give no prompt; an array contributes its `text` blocks joined by blank
lines, with an empty join falling back to `undefined` (`|| undefined`). -/
def extractSystemPrompt : Option SystemField → Option String
  | none => none
  | some (.str s) => if s = "" then none else some s
  | some (.arr blocks) =>
      let joined := String.intercalate "\n\n"
        (blocks.filterMap (fun b => match b with | .text t _ => some t | _ => none))
      if joined = "" then none else some joined

/-- `cleanCacheControl` (thinking-utils.js): removes `cache_control` from
every block of every array-content message.  The modelled `Block` carries
its whitelisted fields plus the aggregate `extra` flag; removing only
`cache_control` changes no modelled field, so each block is rebuilt
unchanged. -/
def cleanCacheControl (msgs : List Msg) : List Msg :=
  msgs.map (fun m =>
    match m.content with
    | .blocks bs => { m with content := .blocks (bs.map (fun b => b)) }
    | _ => m)

/-- The payload of a converted `message` input item: a bare string when
there is exactly one text part, else the array of text parts. -/
inductive MsgPayload where
  | str (s : String)
  | parts (texts : List String)

/-- An item of the converted `input` array. -/
inductive InputItem where
  | message (role : String) (content : MsgPayload)
  | functionCallOutput (callId : List Char) (output : String)
  | functionCall (id callId : List Char) (name arguments : String)

def payloadOf : List String → MsgPayload
  | [t] => .str t
  | ts => .parts ts

/-- `convertUserContent`: splits user content into text parts and
`function_call_output` items (tool results), in order. -/
def convertUserContent (content : MsgContent) (rand : List Char) :
    List String × List InputItem :=
  match content with
  | .str s => ([s], [])
  | .blocks bs =>
      bs.foldl (fun acc b =>
        match b with
        | .text t _ => (acc.1 ++ [t], acc.2)
        | .toolResult tid c isErr _ =>
            (acc.1, acc.2 ++ [InputItem.functionCallOutput (toOpenAIToolId tid.data rand)
              (if isErr then "Error: " ++ c else c)])
        | _ => acc) ([], [])
  | .other => ([], [])

/-- `convertAssistantContentToOpenAI`: splits assistant content into text
parts and `function_call` items; `thinking` blocks only feed the signature
cache and produce no output. -/
def convertAssistantContentToOpenAI (content : MsgContent) (rand : List Char) :
    List String × List InputItem :=
  match content with
  | .str s => ([s], [])
  | .blocks bs =>
      bs.foldl (fun acc b =>
        match b with
        | .text t _ => (acc.1 ++ [t], acc.2)
        | .toolUse i n inp _ _ =>
            (acc.1, acc.2 ++ [InputItem.functionCall (toOpenAIToolId i.data rand)
              (toOpenAIToolId i.data rand) n inp])
        | _ => acc) ([], [])
  | .other => ([], [])

/-- `convertMessagesToInput`: user messages contribute a `message` item
(when they have text) followed by their tool results; assistant messages are
first run through `processAssistantContent` (array content only) and then
contribute a `message` item followed by their tool calls. -/
def convertMessagesToInput (msgs : List Msg) (rand : List Char) : List InputItem :=
  msgs.foldl (fun acc msg =>
    if msg.role = "user" then
      let r := convertUserContent msg.content rand
      acc ++ (if r.1 ≠ [] then [InputItem.message "user" (payloadOf r.1)] else []) ++ r.2
    else if msg.role = "assistant" then
      let mc := match msg.content with
        | .blocks bs => MsgContent.blocks (processAssistantContent bs)
        | c => c
      let r := convertAssistantContentToOpenAI mc rand
      acc ++ (if r.1 ≠ [] then [InputItem.message "assistant" (payloadOf r.1)] else []) ++ r.2
    else acc) []

/-- One inbound tool (`name`, `description`, `input_schema`). -/
structure AnthropicTool where
  name : String
  description : Option String
  input_schema : Option JVal

/-- `tool.input_schema || { type: 'object' }` (a falsy schema value also
falls back). -/
def toolSchemaOr (s : Option JVal) : JVal :=
  match s with
  | some v => if jTruthy v then v else JVal.obj (.cons "type" (.str "object") .nil)
  | none => JVal.obj (.cons "type" (.str "object") .nil)

/-- An entry of the converted `tools` array (`type: 'function'`). -/
structure OpenAITool where
  name : String
  description : String
  parameters : JVal

/-- `convertAnthropicToolsToOpenAI`. -/
def convertAnthropicToolsToOpenAI (tools : List AnthropicTool) : List OpenAITool :=
  tools.map (fun t =>
    { name := t.name, description := t.description.getD "",
      parameters := sanitizeSchema (toolSchemaOr t.input_schema) })

/-- The inbound Protocol-A request (the fields the converter reads, plus its
`stream` flag, which the converter never reads). -/
structure AnthropicRequest where
  model : Option String
  messages : Option (List Msg)
  system : Option SystemField
  tools : Option (List AnthropicTool)
  tool_choice : Option String
  stream : Option Bool

/-- The outbound Protocol-B request.  The source's `include` field is named
`includeList` (`include` is reserved in Lean). -/
structure ResponsesRequest where
  model : String
  input : List InputItem
  tools : List OpenAITool
  tool_choice : String
  parallel_tool_calls : Bool
  store : Bool
  stream : Bool
  includeList : List String
  instructions : String

/-- `convertAnthropicToResponsesAPI`. -/
def convertAnthropicToResponsesAPI (req : AnthropicRequest) (rand : List Char) :
    ResponsesRequest :=
  let cleanedMessages := cleanCacheControl (req.messages.getD [])
  let instructions := extractSystemPrompt req.system
  { model := match req.model with
      | some s => if s = "" then "gpt-5.2-codex" else s
      | none => "gpt-5.2-codex",
    input := convertMessagesToInput cleanedMessages rand,
    tools := match req.tools with
      | some ts => convertAnthropicToolsToOpenAI ts
      | none => [],
    tool_choice := match req.tool_choice with
      | some s => if s = "" then "auto" else s
      | none => "auto",
    parallel_tool_calls := true,
    store := false,
    stream := true,
    includeList := [],
    instructions := instructions.getD "" }

/-- Example pool for the rotation scenarios: two accounts, both usable
for model `"m"`. -/
def examplePool2 : List Account :=
  [{ email := "a", isInvalid := false, enabled := none, cooldownUntil := none,
      modelRateLimits := [], lastUsed := none },
    { email := "b", isInvalid := false, enabled := none, cooldownUntil := none,
      modelRateLimits := [], lastUsed := none }]

/-! # Theorems

## C1: tool-id codec round trip -/

theorem toOpenAIToolId_shape (x rand : List Char) :
    ∃ b, toOpenAIToolId x rand = fcPrefix ++ b := by
  by_cases hx : x = []
  · exact ⟨rand, by simp [toOpenAIToolId, hx]⟩
  · by_cases hp : fcPrefix.isPrefixOf x
    · have hpre : fcPrefix <+: x := List.isPrefixOf_iff_prefix.mp hp
      obtain ⟨t, ht⟩ := hpre
      exact ⟨t, by rw [toOpenAIToolId, if_neg hx, if_pos hp, ht]⟩
    · exact ⟨stripKnownPrefixes x, by simp [toOpenAIToolId, hx, hp]⟩

theorem not_toulu_isPrefixOf_fc (b : List Char) :
    touluPrefix.isPrefixOf (fcPrefix ++ b) = false := by
  simp [touluPrefix, fcPrefix, List.isPrefixOf]

theorem not_fc_isPrefixOf_toulu (b : List Char) :
    fcPrefix.isPrefixOf (touluPrefix ++ b) = false := by
  simp [touluPrefix, fcPrefix, List.isPrefixOf]

theorem not_call_isPrefixOf_toulu (b : List Char) :
    callPrefix.isPrefixOf (touluPrefix ++ b) = false := by
  simp [touluPrefix, callPrefix, List.isPrefixOf]

theorem toulu_isPrefixOf_toulu (b : List Char) :
    touluPrefix.isPrefixOf (touluPrefix ++ b) = true := by
  simp [touluPrefix, List.isPrefixOf]

theorem fc_isPrefixOf_fc (b : List Char) :
    fcPrefix.isPrefixOf (fcPrefix ++ b) = true := by
  simp [fcPrefix, List.isPrefixOf]

/-- C1: the tool-id codec is idempotent under its own inverse.  For any
identifier `x` (including the empty/absent one, where a random suffix `r1`
is baked into the first result `y`), converting `y` back to the Anthropic
form and forward again reproduces `y`, whatever random suffixes the later
calls would draw. -/
theorem toolId_roundTrip (x r1 r2 r3 : List Char) :
    toOpenAIToolId (toAnthropicToolId (toOpenAIToolId x r1) r2) r3 =
      toOpenAIToolId x r1 := by
  obtain ⟨b, hy⟩ := toOpenAIToolId_shape x r1
  rw [hy]
  have hfcne : fcPrefix ++ b ≠ [] := by simp [fcPrefix]
  have htoulune : touluPrefix ++ b ≠ [] := by simp [touluPrefix]
  rw [toAnthropicToolId]
  rw [if_neg hfcne, if_neg (by simp [not_toulu_isPrefixOf_fc]),
    if_pos (by simp [fc_isPrefixOf_fc])]
  have hdrop : (fcPrefix ++ b).drop 3 = b := by
    simp [fcPrefix]
  rw [hdrop, toOpenAIToolId]
  rw [if_neg htoulune, if_neg (by simp [not_fc_isPrefixOf_toulu])]
  rw [stripKnownPrefixes]
  rw [if_neg (by simp [not_call_isPrefixOf_toulu]),
    if_pos (by simp [toulu_isPrefixOf_toulu])]
  have : (touluPrefix ++ b).drop 6 = b := by
    simp [touluPrefix]
  rw [this]


/-! ## C3: the trailing-unsigned-thinking trim -/

theorem mem_takeWhile_pred {α} {p : α → Bool} :
    ∀ {l : List α} {a : α}, a ∈ l.takeWhile p → p a = true := by
  intro l
  induction l with
  | nil => intro a h; simp [List.takeWhile] at h
  | cons b tl ih =>
      intro a h
      by_cases hb : p b
      · rw [List.takeWhile_cons_of_pos hb] at h
        rcases List.mem_cons.mp h with rfl | h
        · exact hb
        · exact ih h
      · rw [List.takeWhile_cons_of_neg hb] at h
        simp at h

theorem head?_dropWhile_pred {α} {p : α → Bool} :
    ∀ {l : List α} {a : α}, (l.dropWhile p).head? = some a → p a = false := by
  intro l
  induction l with
  | nil => intro a h; simp [List.dropWhile] at h
  | cons b tl ih =>
      intro a h
      by_cases hb : p b
      · rw [List.dropWhile_cons_of_pos hb] at h
        exact ih h
      · rw [List.dropWhile_cons_of_neg hb] at h
        simp at h
        rw [← h]
        exact Bool.eq_false_iff.mpr hb

theorem removeTrailing_decomp (content : List Block) :
    content = removeTrailingThinkingBlocks content ++
      (content.reverse.takeWhile trailingUnsigned).reverse := by
  unfold removeTrailingThinkingBlocks
  conv_lhs => rw [← List.reverse_reverse content,
    ← List.takeWhile_append_dropWhile (p := trailingUnsigned) (l := content.reverse)]
  rw [List.reverse_append]

/-- C3: the trailing-unsigned-thinking trim removes exactly the contiguous
trailing run of unsigned thinking/redacted-thinking blocks: the output is a
prefix of the input whose removed suffix consists only of thinking-parts
without a valid signature, the output never ends in such a block (it stops at
the first non-thinking or validly signed thinking block), and concretely
`[text, thinking(unsigned), thinking(short)]` reduces to `[text]` while
`[text, thinking(signed, 60 chars)]` is unchanged. -/
theorem removeTrailingThinkingBlocks_spec (content : List Block) :
    (∃ run, content = removeTrailingThinkingBlocks content ++ run ∧
        ∀ b ∈ run, isThinkingPart b = true ∧ hasValidSignature b = false) ∧
    (∀ b, (removeTrailingThinkingBlocks content).getLast? = some b →
        isThinkingPart b = false ∨ hasValidSignature b = true) ∧
    removeTrailingThinkingBlocks
        [Block.text "hi" false, Block.thinking "a" none false,
          Block.thinking "b" (some "short") false] = [Block.text "hi" false] ∧
    removeTrailingThinkingBlocks
        [Block.text "hi" false, Block.thinking "a" (some sampleSig60) false] =
      [Block.text "hi" false, Block.thinking "a" (some sampleSig60) false] := by
  refine ⟨⟨(content.reverse.takeWhile trailingUnsigned).reverse,
      removeTrailing_decomp content, ?_⟩, ?_, by decide, by decide⟩
  · intro b hb
    rw [List.mem_reverse] at hb
    have := mem_takeWhile_pred hb
    simp only [trailingUnsigned, Bool.and_eq_true, Bool.not_eq_true'] at this
    exact this
  · intro b hb
    unfold removeTrailingThinkingBlocks at hb
    rw [List.getLast?_reverse] at hb
    have := head?_dropWhile_pred hb
    simp only [trailingUnsigned, Bool.and_eq_false_iff, Bool.not_eq_false'] at this
    rcases this with h | h
    · exact Or.inl h
    · exact Or.inr h

/-- Witness for C3: instantiating the trim specification at
`[text, thinking(unsigned)]` and discharging its hypotheses there. -/
theorem removeTrailingThinkingBlocks_spec_witness :
    (isThinkingPart (Block.thinking "a" none false) = true ∧
      hasValidSignature (Block.thinking "a" none false) = false) ∧
    (isThinkingPart (Block.text "hi" false) = false ∨
      hasValidSignature (Block.text "hi" false) = true) := by
  have h := removeTrailingThinkingBlocks_spec
      [Block.text "hi" false, Block.thinking "a" none false]
  obtain ⟨⟨run, hrun, hall⟩, hmax, -, -⟩ := h
  have hout : removeTrailingThinkingBlocks
      [Block.text "hi" false, Block.thinking "a" none false] =
        [Block.text "hi" false] := by decide
  rw [hout] at hrun hmax
  have hruneq : run = [Block.thinking "a" none false] := by
    simpa using hrun.symm
  subst hruneq
  exact ⟨hall _ (List.mem_singleton.mpr rfl), hmax _ (by decide)⟩

/-! ## C2: reorder invariant and the no-trailing-unsigned-thinking property -/

theorem reorderPartition_rank (content : List Block) :
    (∀ b ∈ (reorderPartition content).1, blockRank b = 0) ∧
    (∀ b ∈ (reorderPartition content).2.1, blockRank b = 1) ∧
    (∀ b ∈ (reorderPartition content).2.2, blockRank b = 2) := by
  induction content with
  | nil => simp [reorderPartition]
  | cons b rest ih =>
      obtain ⟨h1, h2, h3⟩ := ih
      rcases hp : reorderPartition rest with ⟨ts, xs, us⟩
      rw [hp] at h1 h2 h3
      cases b <;>
        simp_all [reorderPartition, sanitizeAnthropicThinkingBlock,
          sanitizeTextBlock, sanitizeToolUseBlock, blockRank]
      split <;> simp_all [blockRank]

theorem pairwise_rank_const {c : Nat} :
    ∀ {l : List Block}, (∀ b ∈ l, blockRank b = c) →
      List.Pairwise (fun a b => blockRank a ≤ blockRank b) l := by
  intro l
  induction l with
  | nil => intro _; exact List.Pairwise.nil
  | cons x tl ih =>
      intro h
      refine List.Pairwise.cons ?_ (ih fun b hb => h b (List.mem_cons_of_mem _ hb))
      intro b hb
      rw [h x (List.mem_cons_self _ _), h b (List.mem_cons_of_mem _ hb)]

theorem reorder_rank_pairwise (content : List Block) :
    List.Pairwise (fun a b => blockRank a ≤ blockRank b)
      (reorderAssistantContent content) := by
  match content with
  | [] => simp [reorderAssistantContent, reorderPartition]
  | [b] =>
      cases b <;> simp [reorderAssistantContent]
  | a :: b :: rest =>
      show List.Pairwise _ (reorderAssistantContent (a :: b :: rest))
      obtain ⟨h1, h2, h3⟩ := reorderPartition_rank (a :: b :: rest)
      rcases hp : reorderPartition (a :: b :: rest) with ⟨ts, xs, us⟩
      rw [hp] at h1 h2 h3
      have hout : reorderAssistantContent (a :: b :: rest) = ts ++ xs ++ us := by
        simp [reorderAssistantContent, hp]
      rw [hout]
      rw [List.append_assoc, List.pairwise_append]
      refine ⟨pairwise_rank_const h1, ?_, ?_⟩
      · rw [List.pairwise_append]
        refine ⟨pairwise_rank_const h2, pairwise_rank_const h3, ?_⟩
        intro p hp' q hq
        rw [h2 p hp', h3 q hq]
        decide
      · intro p hp' q hq
        rw [h1 p hp']
        simp


theorem reorderPartition_fst_thinking_mem (content : List Block) :
    ∀ t sig x, Block.thinking t sig x ∈ (reorderPartition content).1 →
      ∃ e, Block.thinking t sig e ∈ content := by
  induction content with
  | nil => simp [reorderPartition]
  | cons b rest ih =>
      intro t sig x hmem
      rcases hp : reorderPartition rest with ⟨ts, xs, us⟩
      rw [hp] at ih
      cases b <;>
        simp only [reorderPartition, hp, sanitizeAnthropicThinkingBlock] at hmem
      case thinking t' sig' e' =>
        rcases List.mem_cons.mp hmem with heq | htail
        · obtain ⟨rfl, rfl⟩ : t = t' ∧ sig = sig' := by
            cases heq; exact ⟨rfl, rfl⟩
          exact ⟨e', List.mem_cons_self _ _⟩
        · obtain ⟨e, he⟩ := ih t sig x htail
          exact ⟨e, List.mem_cons_of_mem _ he⟩
      case redactedThinking d e' =>
        rcases List.mem_cons.mp hmem with heq | htail
        · exact absurd heq (by simp)
        · obtain ⟨e, he⟩ := ih t sig x htail
          exact ⟨e, List.mem_cons_of_mem _ he⟩
      case text txt e' =>
        have htail : Block.thinking t sig x ∈ ts := by
          by_cases hc : 0 < (jsTrim txt).length
          · simpa [hc] using hmem
          · simpa [hc] using hmem
        obtain ⟨e, he⟩ := ih t sig x htail
        exact ⟨e, List.mem_cons_of_mem _ he⟩
      case toolUse i n inp tsg e' =>
        obtain ⟨e, he⟩ := ih t sig x hmem
        exact ⟨e, List.mem_cons_of_mem _ he⟩
      case toolResult tid c isErr e' =>
        obtain ⟨e, he⟩ := ih t sig x hmem
        exact ⟨e, List.mem_cons_of_mem _ he⟩

theorem restore_thinkingSigned (content : List Block) :
    ∀ t sig e, Block.thinking t sig e ∈ restoreThinkingSignatures content →
      ∃ s, sig = some s ∧ MIN_SIGNATURE_LENGTH ≤ s.length := by
  induction content with
  | nil => simp [restoreThinkingSignatures]
  | cons b rest ih =>
      intro t sig e hmem
      match b with
      | .thinking t' (some s') e' =>
          by_cases hs : MIN_SIGNATURE_LENGTH ≤ s'.length
          · have hmem' : Block.thinking t sig e ∈
                sanitizeAnthropicThinkingBlock (Block.thinking t' (some s') e') ::
                  restoreThinkingSignatures rest := by
              have hr : restoreThinkingSignatures (Block.thinking t' (some s') e' :: rest) =
                  sanitizeAnthropicThinkingBlock (Block.thinking t' (some s') e') ::
                    restoreThinkingSignatures rest := by
                rw [restoreThinkingSignatures, if_pos hs]
              rw [hr] at hmem
              exact hmem
            rcases List.mem_cons.mp hmem' with heq | htail
            · obtain ⟨-, rfl⟩ : t = t' ∧ sig = some s' := by
                simp [sanitizeAnthropicThinkingBlock] at heq
                exact ⟨heq.1, heq.2.1⟩
              exact ⟨s', rfl, hs⟩
            · exact ih t sig e htail
          · have hr : restoreThinkingSignatures (Block.thinking t' (some s') e' :: rest) =
                restoreThinkingSignatures rest := by
              rw [restoreThinkingSignatures, if_neg hs]
            rw [hr] at hmem
            exact ih t sig e hmem
      | .thinking t' none e' =>
          have hmem' : Block.thinking t sig e ∈ restoreThinkingSignatures rest := hmem
          exact ih t sig e hmem' 
      | .text txt e' =>
          have hmem' : Block.thinking t sig e ∈
              Block.text txt e' :: restoreThinkingSignatures rest := hmem
          rcases List.mem_cons.mp hmem' with heq | htail
          · exact absurd heq (by simp)
          · exact ih t sig e htail
      | .toolUse i n inp tsg e' =>
          have hmem' : Block.thinking t sig e ∈
              Block.toolUse i n inp tsg e' :: restoreThinkingSignatures rest := hmem
          rcases List.mem_cons.mp hmem' with heq | htail
          · exact absurd heq (by simp)
          · exact ih t sig e htail
      | .toolResult tid c isErr e' =>
          have hmem' : Block.thinking t sig e ∈
              Block.toolResult tid c isErr e' :: restoreThinkingSignatures rest := hmem
          rcases List.mem_cons.mp hmem' with heq | htail
          · exact absurd heq (by simp)
          · exact ih t sig e htail
      | .redactedThinking d e' =>
          have hmem' : Block.thinking t sig e ∈
              Block.redactedThinking d e' :: restoreThinkingSignatures rest := hmem
          rcases List.mem_cons.mp hmem' with heq | htail
          · exact absurd heq (by simp)
          · exact ih t sig e htail

theorem removeTrailing_mem {content : List Block} {b : Block}
    (h : b ∈ removeTrailingThinkingBlocks content) : b ∈ content := by
  rw [removeTrailing_decomp content]
  exact List.mem_append_left _ h

theorem reorder_thinkingSigned (content : List Block)
    (h : ∀ t sig e, Block.thinking t sig e ∈ content →
        ∃ s, sig = some s ∧ MIN_SIGNATURE_LENGTH ≤ s.length) :
    ∀ t sig e, Block.thinking t sig e ∈ reorderAssistantContent content →
      ∃ s, sig = some s ∧ MIN_SIGNATURE_LENGTH ≤ s.length := by
  match content with
  | [] =>
      intro t sig e hmem
      simp [reorderAssistantContent, reorderPartition] at hmem
  | [b] =>
      intro t sig e hmem
      cases b <;>
        simp only [reorderAssistantContent, sanitizeAnthropicThinkingBlock,
          List.mem_singleton] at hmem <;> first
        | (cases hmem; exact h _ _ _ (List.mem_singleton.mpr rfl))
        | exact absurd hmem (by simp)
  | a :: b :: rest =>
      intro t sig e hmem
      obtain ⟨h1, h2, h3⟩ := reorderPartition_rank (a :: b :: rest)
      rcases hp : reorderPartition (a :: b :: rest) with ⟨ts, xs, us⟩
      rw [hp] at h1 h2 h3
      have hout : reorderAssistantContent (a :: b :: rest) = ts ++ xs ++ us := by
        simp [reorderAssistantContent, hp]
      rw [hout] at hmem
      rcases List.mem_append.mp hmem with hm | hm3
      · rcases List.mem_append.mp hm with hm1 | hm2
        · have hfst : Block.thinking t sig e ∈ (reorderPartition (a :: b :: rest)).1 := by
            rw [hp]; exact hm1
          obtain ⟨e', he'⟩ := reorderPartition_fst_thinking_mem _ t sig e hfst
          exact h t sig e' he'
        · have := h2 _ hm2
          simp [blockRank] at this
      · have := h3 _ hm3
        simp [blockRank] at this

/-- C2 (amended): the reorder/sanitize pass (`reorderAssistantContent`, and
hence `processAssistantContent`) always places thinking blocks before text
blocks before tool_use blocks, and every `thinking` block surviving
`processAssistantContent` carries a valid (≥ 50-character) signature — so the
processed sequence never ends in an unsigned `thinking`-typed block.  A
`redacted_thinking` block (which carries no signature at all) can however end
the processed sequence when every later block is dropped as empty text; see
the counterexample. -/
theorem reorder_invariant (content : List Block) :
    List.Pairwise (fun a b => blockRank a ≤ blockRank b)
        (reorderAssistantContent content) ∧
    List.Pairwise (fun a b => blockRank a ≤ blockRank b)
        (processAssistantContent content) ∧
    (∀ t sig e, Block.thinking t sig e ∈ processAssistantContent content →
        ∃ s, sig = some s ∧ MIN_SIGNATURE_LENGTH ≤ s.length) := by
  refine ⟨reorder_rank_pairwise content, reorder_rank_pairwise _, ?_⟩
  exact reorder_thinkingSigned _ (fun t sig e hm =>
    restore_thinkingSigned content t sig e (removeTrailing_mem hm))

/-- Witness for C2 (amended), at a two-block content array whose signed
thinking block survives the pipeline. -/
theorem reorder_invariant_witness :
    ∃ s, (some sampleSig60 : Option String) = some s ∧
      MIN_SIGNATURE_LENGTH ≤ s.length := by
  have h := (reorder_invariant
      [Block.thinking "t" (some sampleSig60) false, Block.text "x" false]).2.2
  exact h "t" (some sampleSig60) false (by decide)

/-- C2 counterexample: the claim that the processed sequence never ends in an
unsigned thinking block fails as stated.  On
`[redacted_thinking, text("  ")]` the pipeline drops the whitespace-only text
block during reordering, so the processed sequence ends in a
`redacted_thinking` block — a thinking-part without a valid signature, i.e.
exactly a block the trim pass itself classifies as unsigned. -/
theorem process_trailing_redacted_counterexample :
    processAssistantContent
        [Block.redactedThinking (some "d") false, Block.text "  " false] =
      [Block.redactedThinking (some "d") false] ∧
    (processAssistantContent
        [Block.redactedThinking (some "d") false, Block.text "  " false]).getLast? =
      some (Block.redactedThinking (some "d") false) ∧
    isThinkingPart (Block.redactedThinking (some "d") false) = true ∧
    hasValidSignature (Block.redactedThinking (some "d") false) = false := by
  decide


/-! ## C4: stream grammar of the two re-encoders -/

def isMsgStart : AEvent → Bool
  | .messageStart => true
  | _ => false

theorem respStep_hasStart (s : RespState) (e : RespEvent) :
    (respStep s e).1.hasStart = (s.hasStart || respHasContentItem e) := by
  cases e <;> simp [respStep, respHasContentItem]
  case itemAdded item =>
    cases item <;> cases hc : s.cur <;> simp [hc]
  case textDelta d => split <;> simp
  case argsDelta d => split <;> simp

theorem respStep_msgStart (s : RespState) (e : RespEvent) :
    (respStep s e).2.countP isMsgStart =
      if s.hasStart then 0 else if respHasContentItem e then 1 else 0 := by
  cases e <;> simp [respStep, respHasContentItem]
  case itemAdded item =>
    cases item <;> cases hc : s.cur <;> cases hs : s.hasStart <;>
      simp [hc, hs, isMsgStart, List.countP_cons, List.countP_append]
  case textDelta d =>
    split <;> simp [isMsgStart, List.countP_cons]
  case argsDelta d =>
    split <;> simp [isMsgStart, List.countP_cons]

theorem runResp_hasStart (evs : List RespEvent) :
    ∀ s, (runResp s evs).1.hasStart = (s.hasStart || evs.any respHasContentItem) := by
  induction evs with
  | nil => intro s; simp [runResp]
  | cons e rest ih =>
      intro s
      simp only [runResp, List.any_cons]
      rw [ih, respStep_hasStart]
      cases s.hasStart <;> cases respHasContentItem e <;> simp

theorem runResp_msgStart (evs : List RespEvent) :
    ∀ s, (runResp s evs).2.countP isMsgStart =
      if s.hasStart then 0 else if evs.any respHasContentItem then 1 else 0 := by
  induction evs with
  | nil => intro s; simp [runResp]
  | cons e rest ih =>
      intro s
      simp only [runResp, List.any_cons, List.countP_append]
      rw [ih, respStep_msgStart, respStep_hasStart]
      by_cases hs : s.hasStart = true <;>
        by_cases he : respHasContentItem e = true <;>
        by_cases hr : rest.any respHasContentItem = true <;>
        simp [hs, he, hr]

theorem respEpilogue_msgStart (s : RespState) :
    (respEpilogue s).countP isMsgStart = if s.hasStart then 0 else 1 := by
  cases hs : s.hasStart <;> cases hc : s.cur <;>
    simp [respEpilogue, hs, hc, isMsgStart, List.countP_cons, List.countP_append]

theorem respEpilogue_shape (s : RespState) :
    ∃ pre, respEpilogue s = pre ++ [AEvent.messageDelta s.stopReason s.usage, AEvent.messageStop] := by
  refine ⟨(if s.hasStart then
      match s.cur with
      | some _ => [AEvent.contentBlockStop s.blockIndex]
      | none => []
    else
      [AEvent.messageStart, .contentBlockStart 0 .text,
        .contentBlockDelta 0 (.textDelta ""), .contentBlockStop 0]), rfl⟩

theorem runResp_no_content (evs : List RespEvent) :
    ∀ s, evs.all (fun e => ¬respHasContentItem e) → s.cur = none →
      (runResp s evs).2 = [] ∧ (runResp s evs).1.hasStart = s.hasStart ∧
        (runResp s evs).1.cur = none ∧ (runResp s evs).1.stopReason = s.stopReason := by
  induction evs with
  | nil => intro s _ hc; simp [runResp, hc]
  | cons e rest ih =>
      intro s hall hc
      simp only [List.all_cons, Bool.and_eq_true, decide_eq_true_eq] at hall
      obtain ⟨he, hrest⟩ := hall
      have hstep : (respStep s e).2 = [] ∧ (respStep s e).1.hasStart = s.hasStart ∧
          (respStep s e).1.cur = none ∧ (respStep s e).1.stopReason = s.stopReason := by
        cases e with
        | completed i o c => simp [respStep, hc]
        | itemAdded item => simp [respHasContentItem] at he
        | textDelta d => simp [respStep, hc]
        | argsDelta d => simp [respStep, hc]
        | argsDone => simp [respStep, hc]
        | itemDone => simp [respStep, hc]
        | otherEvent => simp [respStep, hc]
      obtain ⟨h4, h2, h1, h3⟩ := hstep
      have ihr := ih (respStep s e).1 (by simpa using hrest) h1
      simp only [runResp]
      refine ⟨?_, ?_, ?_, ?_⟩
      · simp [h4, ihr.1]
      · rw [ihr.2.1, h2]
      · exact ihr.2.2.1
      · rw [ihr.2.2.2, h3]


theorem handleToolCall_start (s : ChatState) (tc : ToolCallDelta) :
    (handleToolCall s tc).1.hasStart = true ∧
    (handleToolCall s tc).2.countP isMsgStart = if s.hasStart then 0 else 1 := by
  by_cases hs : s.hasStart = true <;>
    by_cases hid : s.curToolId = some tc.id <;>
    by_cases hargs : tc.args = "" <;>
    rcases hcur : s.cur with _ | cb <;>
    (try cases cb) <;>
    simp [handleToolCall, hs, hid, hargs, hcur, isMsgStart,
      List.countP_cons, List.countP_append]

theorem handleToolCalls_start (tcs : List ToolCallDelta) :
    ∀ s : ChatState, (handleToolCalls s tcs).1.hasStart = (s.hasStart || !tcs.isEmpty) ∧
      (handleToolCalls s tcs).2.countP isMsgStart =
        if s.hasStart then 0 else if tcs.isEmpty then 0 else 1 := by
  induction tcs with
  | nil => intro s; simp [handleToolCalls]
  | cons tc rest ih =>
      intro s
      obtain ⟨h1, h2⟩ := handleToolCall_start s tc
      obtain ⟨h3, h4⟩ := ih (handleToolCall s tc).1
      rw [h1] at h3 h4
      simp only [handleToolCalls, List.countP_append]
      constructor
      · rw [h3]; simp
      · rw [h4, h2]
        by_cases hs : s.hasStart = true <;> simp [hs]

theorem handleDelta_start (s : ChatState) (d : ChatDelta) :
    (handleDelta s d).1.hasStart = (s.hasStart || deltaHasContent d) ∧
    (handleDelta s d).2.countP isMsgStart =
      if s.hasStart then 0 else if deltaHasContent d then 1 else 0 := by
  by_cases hc : d.content = ""
  · cases hm : d.toolCalls with
    | none =>
        by_cases hs : s.hasStart = true <;>
          simp [handleDelta, hc, hm, hs, deltaHasContent]
    | some tcs =>
        obtain ⟨h1, h2⟩ := handleToolCalls_start tcs s
        by_cases hs : s.hasStart = true <;>
          by_cases he : tcs.isEmpty = true <;>
          (try simp only [hs] at h1 h2) <;>
          simp [handleDelta, hc, hm, hs, he, deltaHasContent, h1, h2,
            List.countP_append]
  · by_cases hs : s.hasStart = true
    · by_cases ht : s.cur = some CurBlock.text
      · cases hm : d.toolCalls with
        | none =>
            simp [handleDelta, hc, hm, hs, ht, deltaHasContent, isMsgStart,
              List.countP_cons]
        | some tcs =>
            obtain ⟨h1, h2⟩ := handleToolCalls_start tcs s
            simp only [hs] at h1 h2
            by_cases he : tcs.isEmpty = true <;>
              simp [handleDelta, hc, hm, hs, ht, he, deltaHasContent, h1, h2,
                isMsgStart, List.countP_append, List.countP_cons]
      · cases hm : d.toolCalls with
        | none =>
            simp [handleDelta, hc, hm, hs, ht, deltaHasContent, isMsgStart,
              List.countP_cons]
        | some tcs =>
            obtain ⟨h1, h2⟩ := handleToolCalls_start tcs
              { s with blockIndex := s.blockIndex + 1, cur := some .text, curToolId := none }
            simp only [hs] at h1 h2
            by_cases he : tcs.isEmpty = true <;>
              simp [handleDelta, hc, hm, hs, ht, he, deltaHasContent, h1, h2,
                isMsgStart, List.countP_append, List.countP_cons]
    · cases hm : d.toolCalls with
      | none =>
          simp [handleDelta, hc, hm, hs, deltaHasContent, isMsgStart,
            List.countP_cons]
      | some tcs =>
          obtain ⟨h1, h2⟩ := handleToolCalls_start tcs
            { s with hasStart := true, cur := some .text, curToolId := none }
          by_cases he : tcs.isEmpty = true <;>
            simp [handleDelta, hc, hm, hs, he, deltaHasContent, h1, h2,
              isMsgStart, List.countP_append, List.countP_cons]

theorem chunkStep_start (s : ChatState) (c : ChatChunk) :
    (chunkStep s c).1.hasStart = (s.hasStart || chunkHasContent c) ∧
    (chunkStep s c).2.countP isMsgStart =
      if s.hasStart then 0 else if chunkHasContent c then 1 else 0 := by
  obtain ⟨u, ch⟩ := c
  cases ch with
  | none => cases u <;> simp [chunkStep, chunkHasContent]
  | some pr =>
      obtain ⟨d, fin⟩ := pr
      cases u with
      | none =>
          obtain ⟨h1, h2⟩ := handleDelta_start s d
          rcases hd : handleDelta s d with ⟨s1, out⟩
          rw [hd] at h1 h2
          simp only at h1 h2
          cases fin with
          | none => simp [chunkStep, chunkHasContent, hd, h1, h2]
          | some fr =>
              by_cases hf : fr = "" <;>
                simp [chunkStep, chunkHasContent, hd, hf, h1, h2]
      | some pq =>
          obtain ⟨p, q⟩ := pq
          obtain ⟨h1, h2⟩ := handleDelta_start { s with usage := ⟨p, q, none⟩ } d
          rcases hd : handleDelta { s with usage := ⟨p, q, none⟩ } d with ⟨s1, out⟩
          rw [hd] at h1 h2
          simp only at h1 h2
          cases fin with
          | none => simp [chunkStep, chunkHasContent, hd, h1, h2]
          | some fr =>
              by_cases hf : fr = "" <;>
                simp [chunkStep, chunkHasContent, hd, hf, h1, h2]

theorem runChat_start (chunks : List ChatChunk) :
    ∀ s : ChatState, (runChat s chunks).1.hasStart = (s.hasStart || chunks.any chunkHasContent) ∧
      (runChat s chunks).2.countP isMsgStart =
        if s.hasStart then 0 else if chunks.any chunkHasContent then 1 else 0 := by
  induction chunks with
  | nil => intro s; simp [runChat]
  | cons c rest ih =>
      intro s
      obtain ⟨h1, h2⟩ := chunkStep_start s c
      obtain ⟨h3, h4⟩ := ih (chunkStep s c).1
      rw [h1] at h3 h4
      simp only [runChat, List.any_cons, List.countP_append]
      constructor
      · rw [h3]; simp [Bool.or_assoc]
      · rw [h4, h2]
        by_cases hs : s.hasStart = true <;>
          by_cases hc : chunkHasContent c = true <;>
          by_cases hr : rest.any chunkHasContent = true <;>
          simp [hs, hc, hr]

theorem chatEpilogue_msgStart (s : ChatState) :
    (chatEpilogue s).countP isMsgStart = if s.hasStart then 0 else 1 := by
  cases hs : s.hasStart <;> cases hc : s.cur <;>
    simp [chatEpilogue, hs, hc, isMsgStart, List.countP_cons, List.countP_append]

theorem chatEpilogue_shape (s : ChatState) :
    ∃ pre, chatEpilogue s =
      pre ++ [AEvent.messageDelta s.stopReason s.usage, AEvent.messageStop] := by
  refine ⟨(if s.hasStart then
      match s.cur with
      | some _ => [AEvent.contentBlockStop s.blockIndex]
      | none => []
    else
      [AEvent.messageStart, .contentBlockStart s.blockIndex .text,
        .contentBlockDelta s.blockIndex (.textDelta ""), .contentBlockStop s.blockIndex]), rfl⟩

theorem chunkStep_inert (s : ChatState) (c : ChatChunk) (h : chunkHasContent c = false) :
    (chunkStep s c).2 = [] ∧ (chunkStep s c).1.hasStart = s.hasStart ∧
      (chunkStep s c).1.cur = s.cur ∧ (chunkStep s c).1.blockIndex = s.blockIndex := by
  obtain ⟨u, ch⟩ := c
  cases ch with
  | none => cases u <;> simp [chunkStep]
  | some pr =>
      obtain ⟨d, fin⟩ := pr
      simp only [chunkHasContent, deltaHasContent, Bool.or_eq_false_iff,
        bne_eq_false_iff_eq, Bool.not_eq_false'] at h
      obtain ⟨hc, he⟩ := h
      have hdel : ∀ s0 : ChatState, handleDelta s0 d = (s0, []) := by
        intro s0
        cases hm : d.toolCalls with
        | none => simp [handleDelta, hc, hm]
        | some tcs =>
            have htcs : tcs = [] := by
              rw [hm] at he; simpa using he
            subst htcs
            simp [handleDelta, hc, hm, handleToolCalls]
      cases u with
      | none =>
          cases fin with
          | none => simp [chunkStep, hdel]
          | some fr => by_cases hf : fr = "" <;> simp [chunkStep, hdel, hf]
      | some pq =>
          obtain ⟨p, q⟩ := pq
          cases fin with
          | none => simp [chunkStep, hdel]
          | some fr => by_cases hf : fr = "" <;> simp [chunkStep, hdel, hf]

theorem runChat_no_content (chunks : List ChatChunk) :
    ∀ s : ChatState, chunks.all (fun c => ¬chunkHasContent c) →
      (runChat s chunks).2 = [] ∧ (runChat s chunks).1.hasStart = s.hasStart ∧
        (runChat s chunks).1.cur = s.cur ∧ (runChat s chunks).1.blockIndex = s.blockIndex := by
  induction chunks with
  | nil => intro s _; simp [runChat]
  | cons c rest ih =>
      intro s hall
      simp only [List.all_cons, Bool.and_eq_true, decide_eq_true_eq] at hall
      obtain ⟨he, hrest⟩ := hall
      obtain ⟨h4, h2, h1, h3⟩ := chunkStep_inert s c (by simpa using he)
      have ihr := ih (chunkStep s c).1 (by simpa using hrest)
      simp only [runChat]
      refine ⟨?_, ?_, ?_, ?_⟩
      · simp [h4, ihr.1]
      · rw [ihr.2.1, h2]
      · rw [ihr.2.2.1, h1]
      · rw [ihr.2.2.2, h3]


theorem streamResponsesAPI_eq (evs : List RespEvent) :
    streamResponsesAPI evs =
      (runResp initRespState evs).2 ++ respEpilogue (runResp initRespState evs).1 := by
  rcases h : runResp initRespState evs with ⟨s, out⟩
  simp [streamResponsesAPI, h]

theorem streamOpenAIChat_eq (chunks : List ChatChunk) :
    streamOpenAIChat chunks =
      (runChat initChatState chunks).2 ++ chatEpilogue (runChat initChatState chunks).1 := by
  rcases h : runChat initChatState chunks with ⟨s, out⟩
  simp [streamOpenAIChat, h]

/-- C4: each re-encoder emits exactly one `message_start` per stream
(emitted lazily: on the first content, or at end of stream via the
no-content fallback), always ends with `message_delta` followed by
`message_stop`, and an upstream stream with zero content items still yields
the complete six-event `message_start … message_stop` grammar containing
exactly one empty text block. -/
theorem reencoder_stream_grammar (evs : List RespEvent) (chunks : List ChatChunk) :
    (streamResponsesAPI evs).countP isMsgStart = 1 ∧
    (∃ pre r u, streamResponsesAPI evs = pre ++ [AEvent.messageDelta r u, AEvent.messageStop]) ∧
    (streamOpenAIChat chunks).countP isMsgStart = 1 ∧
    (∃ pre r u, streamOpenAIChat chunks = pre ++ [AEvent.messageDelta r u, AEvent.messageStop]) ∧
    (evs.all (fun e => ¬respHasContentItem e) →
      ∃ u, streamResponsesAPI evs =
        [AEvent.messageStart, AEvent.contentBlockStart 0 .text,
          AEvent.contentBlockDelta 0 (.textDelta ""), AEvent.contentBlockStop 0,
          AEvent.messageDelta "end_turn" u, AEvent.messageStop]) ∧
    (chunks.all (fun c => ¬chunkHasContent c) →
      ∃ r u, streamOpenAIChat chunks =
        [AEvent.messageStart, AEvent.contentBlockStart 0 .text,
          AEvent.contentBlockDelta 0 (.textDelta ""), AEvent.contentBlockStop 0,
          AEvent.messageDelta r u, AEvent.messageStop]) := by
  refine ⟨?_, ?_, ?_, ?_, ?_, ?_⟩
  · rw [streamResponsesAPI_eq, List.countP_append, runResp_msgStart,
      respEpilogue_msgStart, runResp_hasStart]
    by_cases h : evs.any respHasContentItem = true <;> simp [h, initRespState]
  · obtain ⟨pre, hpre⟩ := respEpilogue_shape (runResp initRespState evs).1
    exact ⟨(runResp initRespState evs).2 ++ pre, _, _,
      by rw [streamResponsesAPI_eq, hpre, List.append_assoc]⟩
  · rw [streamOpenAIChat_eq, List.countP_append, (runChat_start chunks initChatState).2,
      chatEpilogue_msgStart, (runChat_start chunks initChatState).1]
    by_cases h : chunks.any chunkHasContent = true <;> simp [h, initChatState]
  · obtain ⟨pre, hpre⟩ := chatEpilogue_shape (runChat initChatState chunks).1
    exact ⟨(runChat initChatState chunks).2 ++ pre, _, _,
      by rw [streamOpenAIChat_eq, hpre, List.append_assoc]⟩
  · intro h
    obtain ⟨h1, h2, h3, h4⟩ := runResp_no_content evs initRespState h rfl
    refine ⟨(runResp initRespState evs).1.usage, ?_⟩
    rw [streamResponsesAPI_eq, h1]
    have hstart : (runResp initRespState evs).1.hasStart = false := by
      rw [h2]; rfl
    have hstop : (runResp initRespState evs).1.stopReason = "end_turn" := by
      rw [h4]; rfl
    simp [respEpilogue, hstart, hstop]
  · intro h
    obtain ⟨h1, h2, h3, h4⟩ := runChat_no_content chunks initChatState h
    refine ⟨(runChat initChatState chunks).1.stopReason,
      (runChat initChatState chunks).1.usage, ?_⟩
    rw [streamOpenAIChat_eq, h1]
    have hstart : (runChat initChatState chunks).1.hasStart = false := by
      rw [h2]; rfl
    have hidx : (runChat initChatState chunks).1.blockIndex = 0 := by
      rw [h4]; rfl
    simp [chatEpilogue, hstart, hidx]

/-- Witness for C4: a Protocol-B stream consisting only of a completion
event and an empty Protocol-C stream both produce the six-event fallback
sequence. -/
theorem reencoder_stream_grammar_witness :
    (∃ u, streamResponsesAPI [RespEvent.completed 1 2 3] =
      [AEvent.messageStart, AEvent.contentBlockStart 0 .text,
        AEvent.contentBlockDelta 0 (.textDelta ""), AEvent.contentBlockStop 0,
        AEvent.messageDelta "end_turn" u, AEvent.messageStop]) ∧
    (∃ r u, streamOpenAIChat [] =
      [AEvent.messageStart, AEvent.contentBlockStart 0 .text,
        AEvent.contentBlockDelta 0 (.textDelta ""), AEvent.contentBlockStop 0,
        AEvent.messageDelta r u, AEvent.messageStop]) := by
  exact ⟨(reencoder_stream_grammar [RespEvent.completed 1 2 3] []).2.2.2.2.1 (by decide),
    (reencoder_stream_grammar [RespEvent.completed 1 2 3] []).2.2.2.2.2 (by decide)⟩


/-! ## C5: stop_reason determination -/

theorem respStep_stop (s : RespState) (e : RespEvent) :
    (respStep s e).1.stopReason = if respFnCallAdded e then "tool_use" else s.stopReason := by
  cases e <;> simp [respStep, respFnCallAdded]
  case itemAdded item => cases item <;> cases hc : s.cur <;> simp [hc]
  case textDelta d => split <;> simp
  case argsDelta d => split <;> simp

theorem runResp_stop (evs : List RespEvent) :
    ∀ s, (runResp s evs).1.stopReason =
      if evs.any respFnCallAdded then "tool_use" else s.stopReason := by
  induction evs with
  | nil => intro s; simp [runResp]
  | cons e rest ih =>
      intro s
      simp only [runResp, List.any_cons]
      rw [ih, respStep_stop]
      by_cases he : respFnCallAdded e = true <;>
        by_cases hr : rest.any respFnCallAdded = true <;> simp [he, hr]

theorem respStep_opens (s : RespState) (e : RespEvent) :
    (respStep s e).2.any opensToolBlock = respFnCallAdded e := by
  cases e <;> simp [respStep, respFnCallAdded, opensToolBlock]
  case itemAdded item =>
    cases item <;> cases hc : s.cur <;> cases hs : s.hasStart <;>
      simp [hc, hs, opensToolBlock]
  case textDelta d => split <;> simp [opensToolBlock]
  case argsDelta d => split <;> simp [opensToolBlock]

theorem runResp_opens (evs : List RespEvent) :
    ∀ s, (runResp s evs).2.any opensToolBlock = evs.any respFnCallAdded := by
  induction evs with
  | nil => intro s; simp [runResp]
  | cons e rest ih =>
      intro s
      simp only [runResp, List.any_cons, List.any_append]
      rw [ih, respStep_opens]

theorem respEpilogue_opens (s : RespState) :
    (respEpilogue s).any opensToolBlock = false := by
  cases hs : s.hasStart <;> cases hc : s.cur <;>
    simp [respEpilogue, hs, hc, opensToolBlock]

/-- Invariant tying the kilo re-encoder's open tool block to its stop
reason: while a tool_use block is the current block, the stop reason has
been set to `tool_use` (unless a later `finish_reason` overwrote it). -/
def chatPinv (s : ChatState) : Prop :=
  s.cur = some CurBlock.toolUse → s.stopReason = "tool_use"

theorem handleToolCall_stop (s : ChatState) (tc : ToolCallDelta) (h : chatPinv s) :
    (handleToolCall s tc).1.stopReason = "tool_use" ∧
      (handleToolCall s tc).1.cur = some CurBlock.toolUse := by
  by_cases hid : s.curToolId = some tc.id <;>
    by_cases hargs : tc.args = "" <;>
    rcases hcur : s.cur with _ | cb <;>
    (try cases cb) <;>
    simp [handleToolCall, hid, hargs, hcur] <;>
    exact h hcur

theorem handleToolCalls_stop (tcs : List ToolCallDelta) :
    ∀ s : ChatState, chatPinv s →
      chatPinv (handleToolCalls s tcs).1 ∧
      (handleToolCalls s tcs).1.stopReason =
        (if tcs.isEmpty then s.stopReason else "tool_use") := by
  induction tcs with
  | nil =>
      intro s h
      exact ⟨by simpa [handleToolCalls] using h, by simp [handleToolCalls]⟩
  | cons tc rest ih =>
      intro s h
      obtain ⟨h1, h2⟩ := handleToolCall_stop s tc h
      have hp : chatPinv (handleToolCall s tc).1 := fun _ => h1
      obtain ⟨h3, h4⟩ := ih (handleToolCall s tc).1 hp
      rcases hq : handleToolCall s tc with ⟨s1, out⟩
      rw [hq] at h1 h3 h4
      simp only at h1 h3 h4
      constructor
      · have : (handleToolCalls s (tc :: rest)).1 = (handleToolCalls s1 rest).1 := by
          simp [handleToolCalls, hq]
        rw [this]; exact h3
      · have : (handleToolCalls s (tc :: rest)).1 = (handleToolCalls s1 rest).1 := by
          simp [handleToolCalls, hq]
        rw [this, h4]
        by_cases he : rest.isEmpty = true <;> simp [he, h1]

theorem handleDelta_stop (s : ChatState) (d : ChatDelta) (h : chatPinv s) :
    chatPinv (handleDelta s d).1 ∧
    (handleDelta s d).1.stopReason =
      (if (d.toolCalls.getD []).isEmpty then s.stopReason else "tool_use") := by
  have hbranch : chatPinv
      { s with hasStart := true, cur := some CurBlock.text, curToolId := none } :=
    fun hcur => by simp at hcur
  have hbranch2 : chatPinv
      { s with blockIndex := s.blockIndex + 1, cur := some CurBlock.text, curToolId := none } :=
    fun hcur => by simp at hcur
  by_cases hc : d.content = ""
  · cases hm : d.toolCalls with
    | none => exact ⟨by simpa [handleDelta, hc, hm] using h, by simp [handleDelta, hc, hm]⟩
    | some tcs =>
        obtain ⟨h1, h2⟩ := handleToolCalls_stop tcs s h
        exact ⟨by simpa [handleDelta, hc, hm] using h1, by simpa [handleDelta, hc, hm] using h2⟩
  · by_cases hs : s.hasStart = true
    · by_cases ht : s.cur = some CurBlock.text
      · cases hm : d.toolCalls with
        | none => exact ⟨by simpa [handleDelta, hc, hm, hs, ht] using h,
            by simp [handleDelta, hc, hm, hs, ht]⟩
        | some tcs =>
            obtain ⟨h1, h2⟩ := handleToolCalls_stop tcs s h
            exact ⟨by simpa [handleDelta, hc, hm, hs, ht] using h1,
              by simpa [handleDelta, hc, hm, hs, ht] using h2⟩
      · cases hm : d.toolCalls with
        | none => exact ⟨by simpa [handleDelta, hc, hm, hs, ht] using hbranch2,
            by simp [handleDelta, hc, hm, hs, ht]⟩
        | some tcs =>
            obtain ⟨h1, h2⟩ := handleToolCalls_stop tcs
              ({ s with blockIndex := s.blockIndex + 1, cur := some CurBlock.text, curToolId := none })
              hbranch2
            exact ⟨by simpa [handleDelta, hc, hm, hs, ht] using h1,
              by simpa [handleDelta, hc, hm, hs, ht] using h2⟩
    · cases hm : d.toolCalls with
      | none => exact ⟨by simpa [handleDelta, hc, hm, hs] using hbranch,
          by simp [handleDelta, hc, hm, hs]⟩
      | some tcs =>
          obtain ⟨h1, h2⟩ := handleToolCalls_stop tcs
            { s with hasStart := true, cur := some CurBlock.text, curToolId := none } hbranch
          exact ⟨by simpa [handleDelta, hc, hm, hs] using h1,
            by simpa [handleDelta, hc, hm, hs] using h2⟩

theorem chunkStep_stop_noFinish (s : ChatState) (c : ChatChunk)
    (hf : chunkHasFinish c = false) (h : chatPinv s) :
    chatPinv (chunkStep s c).1 ∧
    (chunkStep s c).1.stopReason =
      (if chunkHasToolEntry c then "tool_use" else s.stopReason) := by
  obtain ⟨u, ch⟩ := c
  cases ch with
  | none =>
      cases u <;> exact ⟨by simpa [chunkStep] using h, by simp [chunkStep, chunkHasToolEntry]⟩
  | some pr =>
      obtain ⟨d, fin⟩ := pr
      have hf' : fin = none ∨ fin = some "" := by
        cases fin with
        | none => exact Or.inl rfl
        | some fr =>
            simp only [chunkHasFinish] at hf
            exact Or.inr (by simpa using hf)
      have main : ∀ s0 : ChatState, s0.cur = s.cur → s0.stopReason = s.stopReason →
          chatPinv (handleDelta s0 d).1 ∧
          (handleDelta s0 d).1.stopReason =
            (if (d.toolCalls.getD []).isEmpty then s.stopReason else "tool_use") := by
        intro s0 hcur hstop
        have h0 : chatPinv s0 := by
          intro hq; rw [hstop] ; exact h (hcur ▸ hq)
        obtain ⟨h1, h2⟩ := handleDelta_stop s0 d h0
        exact ⟨h1, by rw [h2, hstop]⟩
      cases u with
      | none =>
          obtain ⟨h1, h2⟩ := main s rfl rfl
          rcases hd : handleDelta s d with ⟨s1, out⟩
          rw [hd] at h1 h2
          rcases hf' with rfl | rfl <;>
            exact ⟨by simpa [chunkStep, hd] using h1,
              by simpa [chunkStep, hd, chunkHasToolEntry] using h2⟩
      | some pq =>
          obtain ⟨p, q⟩ := pq
          obtain ⟨h1, h2⟩ := main { s with usage := ⟨p, q, none⟩ } rfl rfl
          rcases hd : handleDelta { s with usage := ⟨p, q, none⟩ } d with ⟨s1, out⟩
          rw [hd] at h1 h2
          rcases hf' with rfl | rfl <;>
            exact ⟨by simpa [chunkStep, hd] using h1,
              by simpa [chunkStep, hd, chunkHasToolEntry] using h2⟩

theorem runChat_stop_noFinish (chunks : List ChatChunk) :
    ∀ s : ChatState, chunks.all (fun c => ¬chunkHasFinish c) → chatPinv s →
      (runChat s chunks).1.stopReason =
        (if chunks.any chunkHasToolEntry then "tool_use" else s.stopReason) ∧
      chatPinv (runChat s chunks).1 := by
  induction chunks with
  | nil => intro s _ h; exact ⟨by simp [runChat], by simpa [runChat] using h⟩
  | cons c rest ih =>
      intro s hall h
      simp only [List.all_cons, Bool.and_eq_true, decide_eq_true_eq] at hall
      obtain ⟨hc, hrest⟩ := hall
      obtain ⟨h1, h2⟩ := chunkStep_stop_noFinish s c (by simpa using hc) h
      obtain ⟨h3, h4⟩ := ih (chunkStep s c).1 (by simpa using hrest) h1
      have hfst : (runChat s (c :: rest)).1 = (runChat (chunkStep s c).1 rest).1 := by
        rcases hq : chunkStep s c with ⟨s1, out⟩
        rw [hq] at h3
        simp [runChat, hq]
      refine ⟨?_, by rw [hfst]; exact h4⟩
      rw [hfst, h3, h2]
      by_cases he : chunkHasToolEntry c = true <;>
        by_cases hr : rest.any chunkHasToolEntry = true <;> simp [he, hr]

theorem handleDelta_stop_noEntries (s : ChatState) (d : ChatDelta)
    (he : (d.toolCalls.getD []).isEmpty = true) :
    (handleDelta s d).1.stopReason = s.stopReason := by
  cases hm : d.toolCalls with
  | none =>
      by_cases hc : d.content = "" <;> by_cases hs : s.hasStart = true <;>
        by_cases ht : s.cur = some CurBlock.text <;>
        simp [handleDelta, hm, hc, hs, ht]
  | some tcs =>
      have htcs : tcs = [] := by rw [hm] at he; simpa using he
      subst htcs
      by_cases hc : d.content = "" <;> by_cases hs : s.hasStart = true <;>
        by_cases ht : s.cur = some CurBlock.text <;>
        simp [handleDelta, hm, hc, hs, ht, handleToolCalls]

theorem chunkStep_stop_inert (s : ChatState) (c : ChatChunk)
    (hf : chunkHasFinish c = false) (he : chunkHasToolEntry c = false) :
    (chunkStep s c).1.stopReason = s.stopReason := by
  obtain ⟨u, ch⟩ := c
  cases ch with
  | none => cases u <;> simp [chunkStep]
  | some pr =>
      obtain ⟨d, fin⟩ := pr
      simp only [chunkHasToolEntry] at he
      have hf' : fin = none ∨ fin = some "" := by
        cases fin with
        | none => exact Or.inl rfl
        | some fr =>
            simp only [chunkHasFinish] at hf
            exact Or.inr (by simpa using hf)
      cases u with
      | none =>
          have hd := handleDelta_stop_noEntries s d (by simpa using he)
          rcases hq : handleDelta s d with ⟨s1, out⟩
          rw [hq] at hd
          rcases hf' with rfl | rfl <;> simpa [chunkStep, hq] using hd
      | some pq =>
          obtain ⟨p, q⟩ := pq
          have hd := handleDelta_stop_noEntries { s with usage := ⟨p, q, none⟩ } d
            (by simpa using he)
          rcases hq : handleDelta { s with usage := ⟨p, q, none⟩ } d with ⟨s1, out⟩
          rw [hq] at hd
          rcases hf' with rfl | rfl <;> simpa [chunkStep, hq] using hd

theorem runChat_stop_inert (chunks : List ChatChunk) :
    ∀ s : ChatState,
      (∀ c ∈ chunks, chunkHasFinish c = false ∧ chunkHasToolEntry c = false) →
      (runChat s chunks).1.stopReason = s.stopReason := by
  induction chunks with
  | nil => intro s _; simp [runChat]
  | cons c rest ih =>
      intro s hall
      have hc := hall c (List.mem_cons_self _ _)
      have hstep := chunkStep_stop_inert s c hc.1 hc.2
      have hrest := ih (chunkStep s c).1 (fun x hx => hall x (List.mem_cons_of_mem _ hx))
      rcases hq : chunkStep s c with ⟨s1, out⟩
      rw [hq] at hstep hrest
      have : (runChat s (c :: rest)).1 = (runChat s1 rest).1 := by
        simp [runChat, hq]
      rw [this, hrest, hstep]

theorem chunkStep_stop_finish (s : ChatState) (c : ChatChunk) (d : ChatDelta)
    (fr : String) (hc : c.choice = some (d, some fr)) (hfr : fr ≠ "") :
    (chunkStep s c).1.stopReason = (if fr = "tool_calls" then "tool_use" else "end_turn") := by
  obtain ⟨u, ch⟩ := c
  simp only at hc
  subst hc
  cases u with
  | none =>
      rcases hq : handleDelta s d with ⟨s1, out⟩
      simp [chunkStep, hq, hfr]
  | some pq =>
      obtain ⟨p, q⟩ := pq
      rcases hq : handleDelta { s with usage := ⟨p, q, none⟩ } d with ⟨s1, out⟩
      simp [chunkStep, hq, hfr]

theorem runChat_append (xs ys : List ChatChunk) :
    ∀ s : ChatState, runChat s (xs ++ ys) =
      ((runChat (runChat s xs).1 ys).1, (runChat s xs).2 ++ (runChat (runChat s xs).1 ys).2) := by
  induction xs with
  | nil => intro s; simp [runChat]
  | cons c rest ih =>
      intro s
      rcases hq : chunkStep s c with ⟨s1, out⟩
      simp [runChat, hq, ih s1, List.append_assoc]


theorem handleToolCall_opens (s : ChatState) (tc : ToolCallDelta)
    (h : s.cur ≠ some CurBlock.toolUse) :
    (handleToolCall s tc).2.any opensToolBlock = true := by
  by_cases hs : s.hasStart = true <;>
    by_cases hargs : tc.args = "" <;>
    rcases hcur : s.cur with _ | cb <;>
    (try cases cb) <;>
    simp_all [handleToolCall, opensToolBlock]

theorem handleToolCalls_opens (s : ChatState) (tc : ToolCallDelta) (rest : List ToolCallDelta)
    (h : s.cur ≠ some CurBlock.toolUse) :
    (handleToolCalls s (tc :: rest)).2.any opensToolBlock = true := by
  rcases hq : handleToolCall s tc with ⟨s1, out⟩
  have := handleToolCall_opens s tc h
  rw [hq] at this
  simp only at this
  rcases hr : handleToolCalls s1 rest with ⟨s2, outs⟩
  simp [handleToolCalls, hq, hr, this]

theorem handleDelta_opens (s : ChatState) (d : ChatDelta)
    (h : s.cur ≠ some CurBlock.toolUse) :
    (¬(d.toolCalls.getD []).isEmpty → (handleDelta s d).2.any opensToolBlock = true) ∧
    ((d.toolCalls.getD []).isEmpty →
      (handleDelta s d).2.any opensToolBlock = false ∧
        (handleDelta s d).1.cur ≠ some CurBlock.toolUse) := by
  refine ⟨?_, ?_⟩
  · intro he
    cases hm : d.toolCalls with
    | none => rw [hm] at he; simp at he
    | some tcs =>
        rw [hm] at he
        match tcs, he with
        | tc :: rest, _ =>
          have hcur1 : ∀ s1 : ChatState, s1.cur = s.cur ∨ s1.cur = some CurBlock.text →
              s1.cur ≠ some CurBlock.toolUse := by
            rintro s1 (h1 | h1) <;> rw [h1] <;> simp_all
          by_cases hc : d.content = ""
          · have := handleToolCalls_opens s tc rest h
            simp [handleDelta, hc, hm, this]
          · by_cases hs : s.hasStart = true
            · by_cases ht : s.cur = some CurBlock.text
              · have := handleToolCalls_opens s tc rest h
                simp [handleDelta, hc, hm, hs, ht, this]
              · have := handleToolCalls_opens
                  ({ s with blockIndex := s.blockIndex + 1, cur := some CurBlock.text, curToolId := none })
                  tc rest (by simp)
                simp only [hs] at this
                simp [handleDelta, hc, hm, hs, ht, this]
            · have := handleToolCalls_opens
                ({ s with hasStart := true, cur := some CurBlock.text, curToolId := none })
                tc rest (by simp)
              simp [handleDelta, hc, hm, hs, this]
  · intro he
    cases hm : d.toolCalls with
    | none =>
        by_cases hc : d.content = "" <;> by_cases hs : s.hasStart = true <;>
          by_cases ht : s.cur = some CurBlock.text <;>
          simp [handleDelta, hm, hc, hs, ht, opensToolBlock, h]
    | some tcs =>
        have htcs : tcs = [] := by rw [hm] at he; simpa using he
        subst htcs
        by_cases hc : d.content = "" <;> by_cases hs : s.hasStart = true <;>
          by_cases ht : s.cur = some CurBlock.text <;>
          simp [handleDelta, hm, hc, hs, ht, opensToolBlock, handleToolCalls, h]

theorem chunkStep_opens (s : ChatState) (c : ChatChunk)
    (h : s.cur ≠ some CurBlock.toolUse) :
    (chunkHasToolEntry c = true → (chunkStep s c).2.any opensToolBlock = true) ∧
    (chunkHasToolEntry c = false → (chunkStep s c).2.any opensToolBlock = false ∧
      (chunkStep s c).1.cur ≠ some CurBlock.toolUse) := by
  obtain ⟨u, ch⟩ := c
  cases ch with
  | none =>
      cases u <;> simp [chunkStep, chunkHasToolEntry, h]
  | some pr =>
      obtain ⟨d, fin⟩ := pr
      have main : ∀ s0 : ChatState, s0.cur = s.cur →
          (¬(d.toolCalls.getD []).isEmpty → (handleDelta s0 d).2.any opensToolBlock = true) ∧
          ((d.toolCalls.getD []).isEmpty →
            (handleDelta s0 d).2.any opensToolBlock = false ∧
              (handleDelta s0 d).1.cur ≠ some CurBlock.toolUse) := by
        intro s0 hcur
        have h0 : s0.cur ≠ some CurBlock.toolUse := by rw [hcur]; exact h
        exact ⟨(handleDelta_opens s0 d h0).1, (handleDelta_opens s0 d h0).2⟩
      cases u with
      | none =>
          obtain ⟨hA, hB⟩ := main s rfl
          rcases hd : handleDelta s d with ⟨s1, out⟩
          rw [hd] at hA hB
          simp only at hA hB
          constructor
          · intro he
            simp only [chunkHasToolEntry] at he
            have := hA (by simpa using he)
            cases fin with
            | none => simpa [chunkStep, hd] using this
            | some fr => by_cases hf : fr = "" <;> simpa [chunkStep, hd, hf] using this
          · intro he
            simp only [chunkHasToolEntry] at he
            have := hB (by simpa using he)
            cases fin with
            | none =>
                exact ⟨by simpa [chunkStep, hd] using this.1,
                  by simpa [chunkStep, hd] using this.2⟩
            | some fr =>
                by_cases hf : fr = "" <;>
                  exact ⟨by simpa [chunkStep, hd, hf] using this.1,
                    by simpa [chunkStep, hd, hf] using this.2⟩
      | some pq =>
          obtain ⟨p, q⟩ := pq
          obtain ⟨hA, hB⟩ := main { s with usage := ⟨p, q, none⟩ } rfl
          rcases hd : handleDelta { s with usage := ⟨p, q, none⟩ } d with ⟨s1, out⟩
          rw [hd] at hA hB
          simp only at hA hB
          constructor
          · intro he
            simp only [chunkHasToolEntry] at he
            have := hA (by simpa using he)
            cases fin with
            | none => simpa [chunkStep, hd] using this
            | some fr => by_cases hf : fr = "" <;> simpa [chunkStep, hd, hf] using this
          · intro he
            simp only [chunkHasToolEntry] at he
            have := hB (by simpa using he)
            cases fin with
            | none =>
                exact ⟨by simpa [chunkStep, hd] using this.1,
                  by simpa [chunkStep, hd] using this.2⟩
            | some fr =>
                by_cases hf : fr = "" <;>
                  exact ⟨by simpa [chunkStep, hd, hf] using this.1,
                    by simpa [chunkStep, hd, hf] using this.2⟩

theorem runChat_opens (chunks : List ChatChunk) :
    ∀ s : ChatState, s.cur ≠ some CurBlock.toolUse →
      (runChat s chunks).2.any opensToolBlock = chunks.any chunkHasToolEntry := by
  induction chunks with
  | nil => intro s _; simp [runChat]
  | cons c rest ih =>
      intro s h
      obtain ⟨hA, hB⟩ := chunkStep_opens s c h
      rcases hq : chunkStep s c with ⟨s1, out⟩
      rw [hq] at hA hB
      simp only at hA hB
      by_cases he : chunkHasToolEntry c = true
      · have := hA he
        simp [runChat, hq, List.any_append, this, he]
      · obtain ⟨h1, h2⟩ := hB (by simpa using he)
        have := ih s1 h2
        simp [runChat, hq, List.any_append, h1, this, he]

theorem chatEpilogue_opens (s : ChatState) :
    (chatEpilogue s).any opensToolBlock = false := by
  cases hs : s.hasStart <;> cases hc : s.cur <;>
    simp [chatEpilogue, hs, hc, opensToolBlock]


/-- C5 (amended): for the Protocol-B re-encoder the final `message_delta`
carries `stop_reason` `tool_use` exactly when a tool-call content block was
opened during the stream, and `end_turn` otherwise.  For the chat-completions
re-encoder a truthy `finish_reason` overrides the block-based value
(`'tool_calls' → tool_use`, anything else → `end_turn`): when the upstream
sends no truthy `finish_reason` at all, the stop reason is `tool_use` exactly
when a tool-call block was opened; and when a truthy `finish_reason` arrives
with no later tool-call entries or finish reasons, the final stop reason is
its mapping — so a `finish_reason` of `'stop'` after an opened tool-call
block yields `end_turn`, not `tool_use` (see the counterexample). -/
theorem stop_reason_spec (evs : List RespEvent) (chunks : List ChatChunk) :
    (∃ pre u, streamResponsesAPI evs = pre ++
        [AEvent.messageDelta
            (if (streamResponsesAPI evs).any opensToolBlock then "tool_use" else "end_turn") u,
          AEvent.messageStop]) ∧
    (chunks.all (fun c => ¬chunkHasFinish c) →
      ∃ pre u, streamOpenAIChat chunks = pre ++
        [AEvent.messageDelta
            (if (streamOpenAIChat chunks).any opensToolBlock then "tool_use" else "end_turn") u,
          AEvent.messageStop]) ∧
    (∀ l1 c0 d fr l2, chunks = l1 ++ c0 :: l2 → c0.choice = some (d, some fr) → fr ≠ "" →
      (∀ c ∈ l2, chunkHasFinish c = false ∧ chunkHasToolEntry c = false) →
      ∃ pre u, streamOpenAIChat chunks = pre ++
        [AEvent.messageDelta (if fr = "tool_calls" then "tool_use" else "end_turn") u,
          AEvent.messageStop]) := by
  refine ⟨?_, ?_, ?_⟩
  · have hopen : (streamResponsesAPI evs).any opensToolBlock = evs.any respFnCallAdded := by
      rw [streamResponsesAPI_eq, List.any_append, runResp_opens, respEpilogue_opens]
      simp
    have hstop : (runResp initRespState evs).1.stopReason =
        if evs.any respFnCallAdded then "tool_use" else "end_turn" := by
      rw [runResp_stop]; rfl
    obtain ⟨pre, hpre⟩ := respEpilogue_shape (runResp initRespState evs).1
    refine ⟨(runResp initRespState evs).2 ++ pre, (runResp initRespState evs).1.usage, ?_⟩
    rw [hopen, streamResponsesAPI_eq, hpre, List.append_assoc, hstop]
  · intro hnf
    have hpinv : chatPinv initChatState := fun hq => by simp [initChatState] at hq
    obtain ⟨hstop, -⟩ := runChat_stop_noFinish chunks initChatState hnf hpinv
    have hopen : (streamOpenAIChat chunks).any opensToolBlock =
        chunks.any chunkHasToolEntry := by
      rw [streamOpenAIChat_eq, List.any_append, chatEpilogue_opens,
        runChat_opens chunks initChatState (by simp [initChatState])]
      simp
    obtain ⟨pre, hpre⟩ := chatEpilogue_shape (runChat initChatState chunks).1
    refine ⟨(runChat initChatState chunks).2 ++ pre, (runChat initChatState chunks).1.usage, ?_⟩
    rw [hopen, streamOpenAIChat_eq, hpre, List.append_assoc, hstop]
    rfl
  · rintro l1 c0 d fr l2 rfl hch hfr hl2
    have hsplit : l1 ++ c0 :: l2 = (l1 ++ [c0]) ++ l2 := by simp
    have hstop : (runChat initChatState (l1 ++ c0 :: l2)).1.stopReason =
        if fr = "tool_calls" then "tool_use" else "end_turn" := by
      rw [hsplit, runChat_append]
      simp only
      rw [runChat_stop_inert l2 _ hl2]
      have hmid : (runChat initChatState (l1 ++ [c0])).1 =
          (chunkStep (runChat initChatState l1).1 c0).1 := by
        rw [runChat_append]
        simp only
        rcases hq : chunkStep (runChat initChatState l1).1 c0 with ⟨s1, out⟩
        simp [runChat, hq]
      rw [hmid, chunkStep_stop_finish _ c0 d fr hch hfr]
    obtain ⟨pre, hpre⟩ := chatEpilogue_shape (runChat initChatState (l1 ++ c0 :: l2)).1
    refine ⟨(runChat initChatState (l1 ++ c0 :: l2)).2 ++ pre,
      (runChat initChatState (l1 ++ c0 :: l2)).1.usage, ?_⟩
    rw [streamOpenAIChat_eq, hpre, List.append_assoc, hstop]

/-- Witness for C5 (amended): a single-chunk stream with a tool-call delta
and no finish reason, and a single-chunk stream whose only event is a
`finish_reason` of `'stop'`. -/
theorem stop_reason_spec_witness :
    (∃ pre u, streamOpenAIChat [⟨none, some (⟨"", some [⟨"c1", some "f", "{}"⟩]⟩, none)⟩] =
      pre ++ [AEvent.messageDelta
          (if (streamOpenAIChat [⟨none, some (⟨"", some [⟨"c1", some "f", "{}"⟩]⟩, none)⟩]).any
              opensToolBlock then "tool_use" else "end_turn") u,
        AEvent.messageStop]) ∧
    (∃ pre u, streamOpenAIChat [⟨none, some (⟨"", none⟩, some "stop")⟩] =
      pre ++ [AEvent.messageDelta
          (if ("stop" : String) = "tool_calls" then "tool_use" else "end_turn") u,
        AEvent.messageStop]) := by
  constructor
  · exact (stop_reason_spec [] [⟨none, some (⟨"", some [⟨"c1", some "f", "{}"⟩]⟩, none)⟩]).2.1
      (by decide)
  · exact (stop_reason_spec [] [⟨none, some (⟨"", none⟩, some "stop")⟩]).2.2
      [] ⟨none, some (⟨"", none⟩, some "stop")⟩ ⟨"", none⟩ "stop" [] rfl rfl (by decide)
      (fun c hc => absurd hc (List.not_mem_nil c))

/-- C5 counterexample: the claim that `stop_reason` is `tool_use` whenever a
tool-call block was opened fails for the chat-completions re-encoder.  A
stream that opens a tool-call block and then receives `finish_reason: "stop"`
ends with `stop_reason` `end_turn`, because the last `finish_reason` mapping
overwrites the block-based value. -/
theorem kilo_stop_reason_counterexample :
    streamOpenAIChat
        [⟨none, some (⟨"", some [⟨"call1", some "f", "{}"⟩]⟩, none)⟩,
          ⟨none, some (⟨"", none⟩, some "stop")⟩] =
      [AEvent.messageStart,
        AEvent.contentBlockStart 0 (StartBlock.toolUse "call1" "f"),
        AEvent.contentBlockDelta 0 (DeltaPayload.inputJsonDelta "{}"),
        AEvent.contentBlockStop 0,
        AEvent.messageDelta "end_turn" ⟨0, 0, none⟩,
        AEvent.messageStop] ∧
    (streamOpenAIChat
        [⟨none, some (⟨"", some [⟨"call1", some "f", "{}"⟩]⟩, none)⟩,
          ⟨none, some (⟨"", none⟩, some "stop")⟩]).any opensToolBlock = true ∧
    ("end_turn" : String) ≠ "tool_use" := by
  refine ⟨by decide, by decide, by decide⟩


/-! ## C6: the schema sanitizer -/

theorem sanitizeSchema_obj (fs : JObj) :
    sanitizeSchema (.obj fs) = .obj (finalizeSchema (sanitizeFields fs .nil)) := rfl

theorem sanitizeSchema_null :
    sanitizeSchema .null = .obj (.cons "type" (.str "object") .nil) := rfl

theorem sanitizeFields_nil (result : JObj) : sanitizeFields .nil result = result := rfl

/-- The inline loop body of `sanitizeFields` is `sanitizeField`. -/
theorem sanitizeFields_cons (k : String) (v : JVal) (tl result : JObj) :
    sanitizeFields (.cons k v tl) result = sanitizeFields tl (sanitizeField k v result) := by
  cases v <;> rfl

theorem fieldsKeysOk_nil : fieldsKeysOk JObj.nil = true := rfl

/-- The inline field check of `fieldsKeysOk` is `fieldOk`. -/
theorem fieldsKeysOk_cons (k : String) (v : JVal) (tl : JObj) :
    fieldsKeysOk (.cons k v tl) = (fieldOk k v && fieldsKeysOk tl) := by
  cases v <;> rfl

theorem schemaKeysOk_obj (fs : JObj) : schemaKeysOk (.obj fs) = fieldsKeysOk fs := rfl

theorem fieldOk_of_not_special (k : String) (v : JVal)
    (h1 : unsupportedKeys.contains k = false)
    (h2 : k ≠ "properties") (h3 : k ≠ "items") :
    fieldOk k v = true := by
  unfold fieldOk
  rw [h1, if_neg h2, if_neg h3]
  rfl

theorem fieldsKeysOk_setField_aux :
    ∀ n : Nat, ∀ r : JObj, sizeOf r ≤ n → ∀ (k : String) (v : JVal),
      fieldsKeysOk r = true → fieldOk k v = true →
      fieldsKeysOk (r.setField k v) = true := by
  intro n
  induction n using Nat.strong_induction_on with
  | _ n ih =>
      intro r hsz k v h1 h2
      cases r with
      | nil => simp [JObj.setField, fieldsKeysOk_cons, fieldsKeysOk_nil, h2]
      | cons k' v' tl =>
          have htl : sizeOf tl < n := by
            have := JObj.cons.sizeOf_spec k' v' tl
            omega
          rw [fieldsKeysOk_cons, Bool.and_eq_true] at h1
          by_cases h : k' = k
          · subst h
            simp [JObj.setField, fieldsKeysOk_cons, h2, h1.2]
          · simp [JObj.setField, h, fieldsKeysOk_cons, h1.1,
              ih (sizeOf tl) htl tl le_rfl k v h1.2 h2]

theorem fieldsKeysOk_setField {r : JObj} (k : String) (v : JVal)
    (hr : fieldsKeysOk r = true) (hv : fieldOk k v = true) :
    fieldsKeysOk (r.setField k v) = true :=
  fieldsKeysOk_setField_aux (sizeOf r) r le_rfl k v hr hv

theorem fieldsKeysOk_finalize {r : JObj} (hr : fieldsKeysOk r = true) :
    fieldsKeysOk (finalizeSchema r) = true := by
  have htype : fieldOk "type" (.str "object") = true :=
    fieldOk_of_not_special _ _ rfl (by decide) (by decide)
  have hprops : fieldOk "properties" (.obj .nil) = true := by
    unfold fieldOk
    rw [if_pos rfl, show unsupportedKeys.contains "properties" = false from rfl]
    simp [propsKeysOk, propsFieldsOk]
  have hstep : ∀ r1 : JObj, fieldsKeysOk r1 = true →
      fieldsKeysOk (finalizeProps r1) = true := by
    intro r1 h1
    unfold finalizeProps
    split
    · exact fieldsKeysOk_setField _ _ h1 hprops
    · exact h1
  unfold finalizeSchema
  split
  · exact hstep _ hr
  · exact hstep _ (fieldsKeysOk_setField _ _ hr htype)

theorem sanitize_keysOk_bundle :
    ∀ n : Nat,
      (∀ v : JVal, sizeOf v ≤ n → schemaKeysOk (sanitizeSchema v) = true) ∧
      (∀ fs : JObj, sizeOf fs ≤ n → propsFieldsOk (sanitizeProps fs) = true) ∧
      (∀ xs : JArr, ∀ i : Nat, sizeOf xs ≤ n → propsFieldsOk (sanitizeIdxProps i xs) = true) ∧
      (∀ xs : JArr, sizeOf xs ≤ n → itemsArrOk (sanitizeItems xs) = true) ∧
      (∀ fs : JObj, ∀ r : JObj, sizeOf fs ≤ n → fieldsKeysOk r = true →
        fieldsKeysOk (sanitizeFields fs r) = true) ∧
      (∀ (k : String) (v : JVal) (r : JObj), sizeOf v ≤ n → fieldsKeysOk r = true →
        fieldsKeysOk (sanitizeField k v r) = true) := by
  intro n
  induction n using Nat.strong_induction_on with
  | _ n ih =>
  have hnil : fieldsKeysOk JObj.nil = true := fieldsKeysOk_nil
  have hconst : ∀ v' : JVal, fieldOk "enum" v' = true := fun v' =>
    fieldOk_of_not_special _ _ rfl (by decide) (by decide)
  have htype : ∀ v' : JVal, fieldOk "type" v' = true := fun v' =>
    fieldOk_of_not_special _ _ rfl (by decide) (by decide)
  have hreq : ∀ v' : JVal, fieldOk "required" v' = true := fun v' =>
    fieldOk_of_not_special _ _ rfl (by decide) (by decide)
  have hdesc : ∀ v' : JVal, fieldOk "description" v' = true := fun v' =>
    fieldOk_of_not_special _ _ rfl (by decide) (by decide)
  have htitle : ∀ v' : JVal, fieldOk "title" v' = true := fun v' =>
    fieldOk_of_not_special _ _ rfl (by decide) (by decide)
  have hobjkeys : ∀ fs : JObj, fieldsKeysOk fs = true → schemaKeysOk (.obj fs) = true := by
    intro fs h
    simpa [schemaKeysOk] using h
  refine ⟨?_, ?_, ?_, ?_, ?_, ?_⟩
  · intro v hv
    cases v with
    | obj fs =>
        have hfs : sizeOf fs < n := by
          have := JVal.obj.sizeOf_spec fs
          omega
        have hE := (ih (sizeOf fs) hfs).2.2.2.2.1 fs .nil le_rfl hnil
        exact hobjkeys _ (fieldsKeysOk_finalize hE)
    | arr xs => exact hobjkeys _ (fieldsKeysOk_finalize hnil)
    | str s => exact hobjkeys _ (by simp [fieldsKeysOk_cons, fieldsKeysOk_nil, htype])
    | num m => exact hobjkeys _ (by simp [fieldsKeysOk_cons, fieldsKeysOk_nil, htype])
    | bool b => exact hobjkeys _ (by simp [fieldsKeysOk_cons, fieldsKeysOk_nil, htype])
    | null => exact hobjkeys _ (by simp [fieldsKeysOk_cons, fieldsKeysOk_nil, htype])
  · intro fs hfs
    cases fs with
    | nil => simp [sanitizeProps, propsFieldsOk]
    | cons k v tl =>
        have hv : sizeOf v < n := by
          have := JObj.cons.sizeOf_spec k v tl
          omega
        have htl : sizeOf tl < n := by
          have := JObj.cons.sizeOf_spec k v tl
          omega
        have h1 := (ih (sizeOf v) hv).1 v le_rfl
        have h2 := (ih (sizeOf tl) htl).2.1 tl le_rfl
        simp [sanitizeProps, propsFieldsOk, h1, h2]
  · intro xs i hxs
    cases xs with
    | nil => simp [sanitizeIdxProps, propsFieldsOk]
    | cons x tl =>
        have hx : sizeOf x < n := by
          have := JArr.cons.sizeOf_spec x tl
          omega
        have htl : sizeOf tl < n := by
          have := JArr.cons.sizeOf_spec x tl
          omega
        have h1 := (ih (sizeOf x) hx).1 x le_rfl
        have h2 := (ih (sizeOf tl) htl).2.2.1 tl (i + 1) le_rfl
        simp [sanitizeIdxProps, propsFieldsOk, h1, h2]
  · intro xs hxs
    cases xs with
    | nil => simp [sanitizeItems, itemsArrOk]
    | cons x tl =>
        have hx : sizeOf x < n := by
          have := JArr.cons.sizeOf_spec x tl
          omega
        have htl : sizeOf tl < n := by
          have := JArr.cons.sizeOf_spec x tl
          omega
        have h1 := (ih (sizeOf x) hx).1 x le_rfl
        have h2 := (ih (sizeOf tl) htl).2.2.2.1 tl le_rfl
        simp [sanitizeItems, itemsArrOk, h1, h2]
  · intro fs r hfs hr
    cases fs with
    | nil => exact hr
    | cons k v tl =>
        have hv : sizeOf v < n := by
          have := JObj.cons.sizeOf_spec k v tl
          omega
        have htl : sizeOf tl < n := by
          have := JObj.cons.sizeOf_spec k v tl
          omega
        have h1 := (ih (sizeOf v) hv).2.2.2.2.2 k v r le_rfl hr
        have h2 := (ih (sizeOf tl) htl).2.2.2.2.1 tl (sanitizeField k v r) le_rfl h1
        rw [sanitizeFields_cons]
        exact h2
  · intro k v r hv hr
    unfold sanitizeField
    by_cases hk1 : k = "const"
    · rw [if_pos hk1]
      exact fieldsKeysOk_setField "enum" (.arr (.cons v .nil)) hr (hconst _)
    rw [if_neg hk1]
    by_cases hk2 : unsupportedKeys.contains k = true
    · rw [if_pos hk2]
      exact hr
    rw [if_neg hk2]
    by_cases hk3 : k = "additionalProperties"
    · rw [if_pos hk3]
      exact hr
    rw [if_neg hk3]
    by_cases hk4 : k = "type"
    · rw [if_pos hk4]
      subst hk4
      cases v with
      | arr xs => exact fieldsKeysOk_setField "type" _ hr (htype _)
      | obj fs => exact fieldsKeysOk_setField "type" _ hr (htype _)
      | str s => exact fieldsKeysOk_setField "type" _ hr (htype _)
      | num m => exact fieldsKeysOk_setField "type" _ hr (htype _)
      | bool b => exact fieldsKeysOk_setField "type" _ hr (htype _)
      | null => exact fieldsKeysOk_setField "type" _ hr (htype _)
    rw [if_neg hk4]
    by_cases hk5 : k = "properties"
    · rw [if_pos hk5]
      subst hk5
      cases v with
      | obj fs =>
          have hfs : sizeOf fs < n := by
            have := JVal.obj.sizeOf_spec fs
            omega
          have hB := (ih (sizeOf fs) hfs).2.1 fs le_rfl
          refine fieldsKeysOk_setField "properties" _ hr ?_
          unfold fieldOk
          rw [if_pos rfl, show unsupportedKeys.contains "properties" = false from rfl]
          simpa [propsKeysOk] using hB
      | arr xs =>
          have hxs : sizeOf xs < n := by
            have := JVal.arr.sizeOf_spec xs
            omega
          have hC := (ih (sizeOf xs) hxs).2.2.1 xs 0 le_rfl
          refine fieldsKeysOk_setField "properties" _ hr ?_
          unfold fieldOk
          rw [if_pos rfl, show unsupportedKeys.contains "properties" = false from rfl]
          simpa [propsKeysOk] using hC
      | str s => exact hr
      | num m => exact hr
      | bool b => exact hr
      | null => exact hr
    rw [if_neg hk5]
    by_cases hk6 : k = "items"
    · rw [if_pos hk6]
      subst hk6
      have hitemsOk : ∀ w : JVal, itemsKeysOk w = true → fieldOk "items" w = true := by
        intro w hw
        unfold fieldOk
        rw [if_neg (by decide), if_pos rfl,
          show unsupportedKeys.contains "items" = false from rfl]
        simpa using hw
      cases v with
      | arr xs =>
          have hxs : sizeOf xs < n := by
            have := JVal.arr.sizeOf_spec xs
            omega
          have hD := (ih (sizeOf xs) hxs).2.2.2.1 xs le_rfl
          refine fieldsKeysOk_setField "items" _ hr (hitemsOk _ ?_)
          simpa [itemsKeysOk] using hD
      | obj fs =>
          have hfs : sizeOf fs < n := by
            have := JVal.obj.sizeOf_spec fs
            omega
          have hE := (ih (sizeOf fs) hfs).2.2.2.2.1 fs .nil le_rfl hnil
          refine fieldsKeysOk_setField "items" _ hr (hitemsOk _ ?_)
          rw [sanitizeSchema_obj]
          simpa [itemsKeysOk, schemaKeysOk_obj] using fieldsKeysOk_finalize hE
      | null =>
          refine fieldsKeysOk_setField "items" _ hr (hitemsOk _ ?_)
          rw [sanitizeSchema_null]
          simp [itemsKeysOk, schemaKeysOk_obj, fieldsKeysOk_cons, fieldsKeysOk_nil, htype]
      | str s =>
          exact fieldsKeysOk_setField "items" _ hr (hitemsOk _ (by simp [itemsKeysOk, schemaKeysOk]))
      | num m =>
          exact fieldsKeysOk_setField "items" _ hr (hitemsOk _ (by simp [itemsKeysOk, schemaKeysOk]))
      | bool b =>
          exact fieldsKeysOk_setField "items" _ hr (hitemsOk _ (by simp [itemsKeysOk, schemaKeysOk]))
    rw [if_neg hk6]
    by_cases hk7 : k = "required"
    · rw [if_pos hk7]
      subst hk7
      cases v with
      | arr xs => exact fieldsKeysOk_setField "required" _ hr (hreq _)
      | obj fs => exact hr
      | str s => exact hr
      | num m => exact hr
      | bool b => exact hr
      | null => exact hr
    rw [if_neg hk7]
    by_cases hk8 : k = "enum"
    · rw [if_pos hk8]
      subst hk8
      cases v with
      | arr xs => exact fieldsKeysOk_setField "enum" _ hr (hconst _)
      | obj fs => exact hr
      | str s => exact hr
      | num m => exact hr
      | bool b => exact hr
      | null => exact hr
    rw [if_neg hk8]
    by_cases hk9 : k = "description" ∨ k = "title"
    · rw [if_pos hk9]
      rcases hk9 with rfl | rfl
      · exact fieldsKeysOk_setField "description" v hr (hdesc _)
      · exact fieldsKeysOk_setField "title" v hr (htitle _)
    · rw [if_neg hk9]
      exact hr


/-- C6: the schema sanitizer normalizes type unions and `const`, and strips
unsupported keywords: `{type:["string","null"]}` sanitizes to
`{type:"string"}` exactly; `{const:"x"}` sanitizes to a schema whose `enum`
is `["x"]` and which retains no `const` key (the post-loop fix-ups also add
the `type:"object"` default and an empty `properties`); and for every input
schema, no unsupported keyword (`$schema`, `$ref`, `pattern`, `minLength`,
`allOf`, `anyOf`, `oneOf`, `not`, …) occurs at a schema-keyword position of
the output, recursively through `properties` and `items`. -/
theorem sanitizeSchema_spec :
    sanitizeSchema (.obj (.cons "type"
        (.arr (.cons (.str "string") (.cons (.str "null") .nil))) .nil)) =
      .obj (.cons "type" (.str "string") .nil) ∧
    sanitizeSchema (.obj (.cons "const" (.str "x") .nil)) =
      .obj (.cons "enum" (.arr (.cons (.str "x") .nil))
        (.cons "type" (.str "object") (.cons "properties" (.obj .nil) .nil))) ∧
    (sanitizeSchema (.obj (.cons "const" (.str "x") .nil))).getField "enum" =
      some (.arr (.cons (.str "x") .nil)) ∧
    (sanitizeSchema (.obj (.cons "const" (.str "x") .nil))).getField "const" = none ∧
    ∀ v : JVal, schemaKeysOk (sanitizeSchema v) = true := by
  have hsan : ∀ v : JVal, schemaKeysOk (sanitizeSchema v) = true := fun v =>
    (sanitize_keysOk_bundle (sizeOf v)).1 v le_rfl
  exact ⟨by decide, by decide, by decide, by decide, hsan⟩


/-! ## C7: minimum wait time and the all-rate-limited orchestrator branch -/

theorem minFoldOpt_nil (acc : Option Int) : minFoldOpt acc [] = acc := rfl

theorem minFoldOpt_cons (acc : Option Int) (w : Int) (tl : List Int) :
    minFoldOpt acc (w :: tl) = minFoldOpt (if ltOpt w acc then some w else acc) tl := rfl

theorem minFoldOpt_append (acc : Option Int) (l1 l2 : List Int) :
    minFoldOpt acc (l1 ++ l2) = minFoldOpt (minFoldOpt acc l1) l2 := by
  simp [minFoldOpt, List.foldl_append]

theorem minFoldOpt_spec :
    ∀ (l : List Int) (acc : Option Int) (r : Int), minFoldOpt acc l = some r →
      (acc = some r ∨ r ∈ l) ∧ (∀ w ∈ l, r ≤ w) ∧ (∀ v, acc = some v → r ≤ v) := by
  intro l
  induction l with
  | nil =>
      intro acc r h
      rw [minFoldOpt_nil] at h
      exact ⟨Or.inl h, by simp, fun v hv => by rw [h] at hv; injection hv with hv; omega⟩
  | cons w tl ih =>
      intro acc r h
      rw [minFoldOpt_cons] at h
      obtain ⟨h1, h2, h3⟩ := ih _ r h
      by_cases hw : ltOpt w acc = true
      · rw [if_pos hw] at h1 h3
        have hrw : r ≤ w := h3 w rfl
        refine ⟨?_, ?_, ?_⟩
        · rcases h1 with h1 | h1
          · injection h1 with h1
            exact Or.inr (by simp [h1])
          · exact Or.inr (List.mem_cons_of_mem _ h1)
        · intro x hx
          rcases List.mem_cons.mp hx with rfl | hx
          · exact hrw
          · exact h2 x hx
        · intro v hv
          cases acc with
          | none => simp at hv
          | some m =>
              injection hv with hv
              have hwm : w < m := by simpa [ltOpt] using hw
              have hrw2 : r ≤ w := h3 w rfl
              omega
      · rw [if_neg hw] at h1 h3
        refine ⟨?_, ?_, ?_⟩
        · rcases h1 with h1 | h1
          · exact Or.inl h1
          · exact Or.inr (List.mem_cons_of_mem _ h1)
        · intro x hx
          rcases List.mem_cons.mp hx with rfl | hx
          · cases acc with
            | none => simp [ltOpt] at hw
            | some m =>
                have hm : ¬ x < m := by simpa [ltOpt] using hw
                have : r ≤ m := h3 m rfl
                omega
          · exact h2 x hx
        · exact h3

theorem minFoldOpt_isSome_of_acc :
    ∀ (l : List Int) (acc : Option Int), acc.isSome → (minFoldOpt acc l).isSome := by
  intro l
  induction l with
  | nil => intro acc h; simpa [minFoldOpt_nil] using h
  | cons w tl ih =>
      intro acc h
      rw [minFoldOpt_cons]
      by_cases hw : ltOpt w acc = true
      · exact ih _ (by simp [hw])
      · exact ih _ (by simp [hw, h])

theorem minFoldOpt_isSome_of_ne_nil (l : List Int) (h : l ≠ []) :
    (minFoldOpt none l).isSome := by
  cases l with
  | nil => exact absurd rfl h
  | cons w tl =>
      rw [minFoldOpt_cons]
      exact minFoldOpt_isSome_of_acc tl _ (by simp [ltOpt])

theorem minWaitFold_eq_minFoldOpt (now : Int) (modelId : String) :
    ∀ (accounts : List Account) (acc : Option Int),
      minWaitFold now modelId accounts acc = minFoldOpt acc (waitsOf now modelId accounts) := by
  intro accounts
  induction accounts with
  | nil => intro acc; simp [minWaitFold, waitsOf, minFoldOpt_nil]
  | cons a rest ih =>
      intro acc
      by_cases hi : a.isInvalid = true
      · simp only [minWaitFold, waitsOf, hi, if_pos]
        exact ih acc
      · simp only [minWaitFold, waitsOf, hi, if_neg, Bool.false_eq_true, if_false]
        rw [minFoldOpt_append, minFoldOpt_append, ih]
        congr 1
        by_cases hcd : 0 < getCooldownRemaining now a
        · rw [if_pos hcd]
          cases hlk : lookupLimit a.modelRateLimits modelId with
          | none =>
              simp only [minFoldOpt_cons, minFoldOpt_nil]
              by_cases hlt : ltOpt (getCooldownRemaining now a) acc = true <;>
                simp [hlt, hcd]
          | some l =>
              dsimp only
              by_cases hrl : l.isRateLimited = true ∧ now < l.resetTime.getD 0
              · rw [if_pos hrl]
                by_cases hlt : ltOpt (getCooldownRemaining now a) acc = true <;>
                  simp [hlt, hcd, hrl, minFoldOpt_cons, minFoldOpt_nil]
              · rw [if_neg hrl]
                by_cases hlt : ltOpt (getCooldownRemaining now a) acc = true <;>
                  simp [hlt, hcd, hrl, minFoldOpt_cons, minFoldOpt_nil]
        · rw [if_neg hcd]
          cases hlk : lookupLimit a.modelRateLimits modelId with
          | none => simp [minFoldOpt_nil, hcd]
          | some l =>
              dsimp only
              by_cases hrl : l.isRateLimited = true ∧ now < l.resetTime.getD 0
              · rw [if_pos hrl]
                simp [hcd, hrl, minFoldOpt_cons, minFoldOpt_nil]
              · rw [if_neg hrl]
                simp [minFoldOpt_nil, hcd, hrl]

theorem available_of_usable {now : Int} {a : Account} {modelId : String}
    (hm : modelId ≠ "") (h : isAccountUsable now a modelId = true) :
    availableFilter now modelId a = true := by
  by_cases h1 : a.isInvalid = true
  · simp [isAccountUsable, h1] at h
  by_cases h2 : a.enabled = some false
  · simp [isAccountUsable, h1, h2] at h
  by_cases h3 : isAccountCoolingDown now a = true
  · simp [isAccountUsable, h1, h2, h3] at h
  cases hlk : lookupLimit a.modelRateLimits modelId with
  | none => simp [availableFilter, h1, h3, hlk]
  | some l =>
      simp only [isAccountUsable, h1, h2, h3, hm, hlk, Bool.false_eq_true, if_false,
        if_neg, if_true, ne_eq, not_false_iff] at h
      simp only [availableFilter, h1, h3, hlk, Bool.false_eq_true, if_false]
      simp only [Bool.not_eq_true', Bool.and_eq_false_iff] at h
      rcases h with h | h
      · simp [h]
      · simp only [decide_eq_false_iff_not, Int.not_lt] at h
        simp [h]

theorem getMinWait_zero_of_usable {now : Int} {accounts : List Account} {modelId : String}
    {a : Account} (hm : modelId ≠ "") (ha : a ∈ accounts)
    (hu : isAccountUsable now a modelId = true) :
    getMinWaitTimeMs now accounts modelId = 0 := by
  have hne : accounts.isEmpty = false := by
    cases accounts with
    | nil => simp at ha
    | cons x tl => rfl
  have hav : a ∈ accounts.filter (availableFilter now modelId) :=
    List.mem_filter.mpr ⟨ha, available_of_usable hm hu⟩
  have hfil : (accounts.filter (availableFilter now modelId)).isEmpty = false := by
    cases hq : accounts.filter (availableFilter now modelId) with
    | nil => rw [hq] at hav; simp at hav
    | cons x tl => rfl
  unfold getMinWaitTimeMs getAvailableAccounts
  rw [hne]
  simp [hfil]

theorem available_empty_of_allRL {now : Int} {accounts : List Account} {modelId : String}
    (h : ∀ a ∈ accounts, a.isInvalid = false → accountRateLimitedFor now modelId a = true) :
    accounts.filter (availableFilter now modelId) = [] := by
  rw [List.filter_eq_nil]
  intro a ha
  by_cases h1 : a.isInvalid = true
  · simp [availableFilter, h1]
  by_cases h3 : isAccountCoolingDown now a = true
  · simp [availableFilter, h1, h3]
  have hrl := h a ha (by simpa using h1)
  unfold accountRateLimitedFor at hrl
  cases hlk : lookupLimit a.modelRateLimits modelId with
  | none => rw [hlk] at hrl; simp at hrl
  | some l =>
      rw [hlk] at hrl
      simp only [Bool.and_eq_true, decide_eq_true_eq] at hrl
      simp [availableFilter, h1, h3, hlk, hrl.1, Int.not_le.mpr hrl.2]

/-- C7 (amended): `getMinWaitTimeMs` returns 0 whenever some account is
usable for the (non-empty-named) model; when every non-invalid account is
rate-limited for the model it returns the minimum of all remaining
cooldown/rate-limit waits of the non-invalid accounts (membership plus
lower bound); on the 10s/40s/90s example pool it returns exactly 10000; and
the retry iteration of `handleMessages`, upon finding every account
rate-limited, fails as resource-exhausted without sleeping when that
minimum exceeds 120000 ms, and otherwise sleeps the minimum wait plus a
fixed 500 ms buffer and retries without consuming an attempt. -/
theorem getMinWait_orchestrator_spec (now : Int) (accounts : List Account) (modelId : String) :
    (∀ a ∈ accounts, modelId ≠ "" → isAccountUsable now a modelId = true →
      getMinWaitTimeMs now accounts modelId = 0) ∧
    ((∀ a ∈ accounts, a.isInvalid = false → accountRateLimitedFor now modelId a = true) →
      accounts ≠ [] → waitsOf now modelId accounts ≠ [] →
      getMinWaitTimeMs now accounts modelId ∈ waitsOf now modelId accounts ∧
        ∀ w ∈ waitsOf now modelId accounts, getMinWaitTimeMs now accounts modelId ≤ w) ∧
    getMinWaitTimeMs 1000000 examplePool3 "m" = 10000 ∧
    (isAllRateLimited now accounts modelId = true →
      MAX_WAIT_BEFORE_ERROR_MS < getMinWaitTimeMs now accounts modelId →
      messagesIterationDecision now accounts modelId =
        .failResourceExhausted (getMinWaitTimeMs now accounts modelId)) ∧
    (isAllRateLimited now accounts modelId = true →
      getMinWaitTimeMs now accounts modelId ≤ MAX_WAIT_BEFORE_ERROR_MS →
      messagesIterationDecision now accounts modelId =
        .sleepRetry (getMinWaitTimeMs now accounts modelId + 500) false) := by
  refine ⟨?_, ?_, by decide, ?_, ?_⟩
  · intro a ha hm hu
    exact getMinWait_zero_of_usable hm ha hu
  · intro hall hne hwne
    have hemp : accounts.isEmpty = false := by
      cases accounts with
      | nil => exact absurd rfl hne
      | cons x tl => rfl
    have hfil : accounts.filter (availableFilter now modelId) = [] :=
      available_empty_of_allRL hall
    have heq : getMinWaitTimeMs now accounts modelId =
        match minWaitFold now modelId accounts none with
        | none => 0
        | some m => m := by
      unfold getMinWaitTimeMs getAvailableAccounts
      rw [hemp]
      simp [hfil]
    rw [minWaitFold_eq_minFoldOpt] at heq
    have hsome := minFoldOpt_isSome_of_ne_nil _ hwne
    obtain ⟨r, hr⟩ := Option.isSome_iff_exists.mp hsome
    rw [hr] at heq
    simp only at heq
    obtain ⟨h1, h2, -⟩ := minFoldOpt_spec _ _ _ hr
    rcases h1 with h1 | h1
    · simp at h1
    · rw [heq]
      exact ⟨h1, h2⟩
  · intro hall hgt
    unfold messagesIterationDecision
    rw [if_pos hall, if_pos hgt]
  · intro hall hle
    unfold messagesIterationDecision
    rw [if_pos hall, if_neg (by omega)]

/-- Witness for C7 (amended), on the 10s/40s/90s example pool at
`now = 1000000`. -/
theorem getMinWait_orchestrator_spec_witness :
    (getMinWaitTimeMs 1000000 examplePool3 "m" ∈ waitsOf 1000000 "m" examplePool3 ∧
      ∀ w ∈ waitsOf 1000000 "m" examplePool3,
        getMinWaitTimeMs 1000000 examplePool3 "m" ≤ w) ∧
    messagesIterationDecision 1000000 examplePool3 "m" =
      .sleepRetry (getMinWaitTimeMs 1000000 examplePool3 "m" + 500) false := by
  have h := getMinWait_orchestrator_spec 1000000 examplePool3 "m"
  exact ⟨h.2.1 (by decide) (by decide) (by decide),
    h.2.2.2.2 (by decide) (by decide)⟩

/-- C7 counterexample: the claim that the orchestrator "sleeps that long"
(the minimum wait itself) is false: with minimum wait 10000 ms the code
sleeps `minWait + 500 = 10500` ms. -/
theorem orchestrator_sleep_counterexample :
    messagesIterationDecision 1000000 examplePool3 "m" = .sleepRetry 10500 false ∧
    getMinWaitTimeMs 1000000 examplePool3 "m" = 10000 ∧
    (10500 : Int) ≠ 10000 := by
  refine ⟨by decide, by decide, by decide⟩

/-! ## C8: round-robin never repeats while alternatives exist -/

theorem scanList_length (start len : Nat) : (scanList start len).length = len := by
  simp [scanList]

theorem mem_scanList_lt {start len j : Nat} (h : j ∈ scanList start len) : j < len := by
  rcases List.mem_map.1 h with ⟨i, hi, rfl⟩
  exact Nat.mod_lt _ (Nat.lt_of_le_of_lt (Nat.zero_le i) (List.mem_range.1 hi))

theorem scanList_nodup (start len : Nat) : (scanList start len).Nodup := by
  refine List.Nodup.map_on ?_ (List.nodup_range _)
  intro i hi j hj hij
  have hi' := List.mem_range.1 hi
  have hj' := List.mem_range.1 hj
  have h2 : i ≡ j [MOD len] := Nat.ModEq.add_left_cancel' start hij
  calc i = i % len := (Nat.mod_eq_of_lt hi').symm
    _ = j % len := h2
    _ = j := Nat.mod_eq_of_lt hj'

theorem mem_scanList_of_lt {start len j : Nat} (hj : j < len) : j ∈ scanList start len := by
  classical
  have hsub : (scanList start len).toFinset ⊆ Finset.range len := fun x hx =>
    Finset.mem_range.2 (mem_scanList_lt (List.mem_toFinset.1 hx))
  have hcard : (Finset.range len).card ≤ (scanList start len).toFinset.card := by
    rw [List.toFinset_card_of_nodup (scanList_nodup start len), scanList_length,
      Finset.card_range]
  have heq := Finset.eq_of_subset_of_card_le hsub hcard
  have hjm : j ∈ (scanList start len).toFinset := by
    rw [heq]; exact Finset.mem_range.2 hj
  exact List.mem_toFinset.1 hjm

theorem find?_isSome_of_mem {α : Type} {p : α → Bool} :
    ∀ {l : List α} {x : α}, x ∈ l → p x = true → (l.find? p).isSome = true := by
  intro l
  induction l with
  | nil => intro x hx _; simp at hx
  | cons a tl ih =>
      intro x hx hp
      by_cases ha : p a = true
      · simp [List.find?_cons_of_pos _ ha]
      · rw [List.find?_cons_of_neg _ (by simpa using ha)]
        rcases List.mem_cons.1 hx with rfl | hx'
        · exact absurd hp ha
        · exact ih hx' hp

theorem find?_append_some {α : Type} {p : α → Bool} {x : α} :
    ∀ {l1 : List α} (l2 : List α), l1.find? p = some x → (l1 ++ l2).find? p = some x := by
  intro l1
  induction l1 with
  | nil => intro l2 h; simp [List.find?] at h
  | cons a tl ih =>
      intro l2 h
      by_cases ha : p a = true
      · rw [List.find?_cons_of_pos _ ha] at h
        simpa [List.find?_cons_of_pos _ ha] using h
      · rw [List.find?_cons_of_neg _ (by simpa using ha)] at h
        rw [List.cons_append, List.find?_cons_of_neg _ (by simpa using ha)]
        exact ih l2 h

theorem usableIdx_lt {t : Int} {P : List Account} {m : String} {j : Nat}
    (h : usableIdx t P m j = true) : j < P.length := by
  by_contra hge
  have hg : P.get? j = none := List.get?_eq_none.2 (by omega)
  simp only [usableIdx, hg] at h
  exact Bool.noConfusion h

theorem mem_usableIndices {t : Int} {P : List Account} {m : String} {j : Nat} :
    j ∈ usableIndices t P m ↔ j < P.length ∧ usableIdx t P m j = true := by
  simp [usableIndices, List.mem_filter, List.mem_range]

theorem usableIndices_nodup (t : Int) (P : List Account) (m : String) :
    (usableIndices t P m).Nodup := List.Nodup.filter _ (List.nodup_range _)

theorem two_usable_ne {t : Int} {P : List Account} {m : String} (k : Nat)
    (h2 : 2 ≤ (usableIndices t P m).length) :
    ∃ j, j < P.length ∧ usableIdx t P m j = true ∧ j ≠ k := by
  rcases hl : usableIndices t P m with _ | ⟨x, _ | ⟨y, tl⟩⟩
  · rw [hl] at h2; simp at h2
  · rw [hl] at h2; simp at h2
  · have hnd := usableIndices_nodup t P m
    rw [hl] at hnd
    have hxy : x ≠ y := by
      intro he
      exact (List.nodup_cons.1 hnd).1 (by simp [he])
    have hx : x ∈ usableIndices t P m := by rw [hl]; simp
    have hy : y ∈ usableIndices t P m := by rw [hl]; simp
    obtain ⟨hxlt, hxu⟩ := mem_usableIndices.1 hx
    obtain ⟨hylt, hyu⟩ := mem_usableIndices.1 hy
    by_cases hk : x = k
    · exact ⟨y, hylt, hyu, fun he => hxy (hk.trans he.symm)⟩
    · exact ⟨x, hxlt, hxu, hk⟩

theorem setLastUsed_length (P : List Account) (k : Nat) (t : Int) :
    (setLastUsed P k t).length = P.length := by
  unfold setLastUsed
  cases hg : P.get? k <;> simp [hg]

theorem rrSelect_some_of_usable (c : Nat) (t : Int) (P : List Account) (m : String)
    (h1 : 1 ≤ (usableIndices t P m).length) :
    ∃ k, k < P.length ∧ usableIdx t P m k = true ∧
      rrSelectAccount c t P m = (⟨some k, k, 0⟩, k, setLastUsed P k t) := by
  rcases hl : usableIndices t P m with _ | ⟨j, tl⟩
  · rw [hl] at h1; simp at h1
  have hj : j ∈ usableIndices t P m := by rw [hl]; simp
  obtain ⟨hjlt, hju⟩ := mem_usableIndices.1 hj
  have hlen : ¬ P.length = 0 := by omega
  have hjmem : j ∈ scanList (((if c ≥ P.length then 0 else c) + 1) % P.length) P.length :=
    mem_scanList_of_lt hjlt
  have hsome := find?_isSome_of_mem hjmem hju
  obtain ⟨k, hk⟩ := Option.isSome_iff_exists.1 hsome
  refine ⟨k, mem_scanList_lt (List.mem_of_find?_eq_some hk), List.find?_some hk, ?_⟩
  simp only [rrSelectAccount]
  rw [if_neg hlen, hk]

theorem rrSelect_ne_cursor (c : Nat) (t : Int) (P : List Account) (m : String)
    (hc : c < P.length)
    (h2 : 2 ≤ (usableIndices t P m).length) :
    ∃ k, (rrSelectAccount c t P m).1.selected = some k ∧ k ≠ c := by
  have hlen : ¬ P.length = 0 := by omega
  have hclamp : ¬ c ≥ P.length := by omega
  have hrange : List.range P.length = List.range (P.length - 1) ++ [P.length - 1] := by
    conv_lhs => rw [show P.length = (P.length - 1) + 1 by omega]
    exact List.range_succ _
  have hlast : ((c + 1) % P.length + (P.length - 1)) % P.length = c := by
    rw [Nat.mod_add_mod]
    have he : c + 1 + (P.length - 1) = c + P.length := by omega
    rw [he, Nat.add_mod_right, Nat.mod_eq_of_lt hc]
  have hdecomp : scanList ((c + 1) % P.length) P.length =
      ((List.range (P.length - 1)).map (fun i => ((c + 1) % P.length + i) % P.length)) ++
        [c] := by
    unfold scanList
    rw [hrange, List.map_append]
    simp only [List.map_cons, List.map_nil]
    rw [hlast]
  have hnd := scanList_nodup ((c + 1) % P.length) P.length
  rw [hdecomp] at hnd
  have hcB : c ∉ (List.range (P.length - 1)).map
      (fun i => ((c + 1) % P.length + i) % P.length) := by
    intro hmem
    exact (List.nodup_append.1 hnd).2.2 hmem (by simp)
  obtain ⟨j, hjlt, hju, hjc⟩ := two_usable_ne c h2
  have hjscan : j ∈ scanList ((c + 1) % P.length) P.length := mem_scanList_of_lt hjlt
  rw [hdecomp] at hjscan
  have hjB : j ∈ (List.range (P.length - 1)).map
      (fun i => ((c + 1) % P.length + i) % P.length) := by
    rcases List.mem_append.1 hjscan with h | h
    · exact h
    · simp at h; exact absurd h hjc
  have hsome := find?_isSome_of_mem hjB hju
  obtain ⟨k, hkB⟩ := Option.isSome_iff_exists.1 hsome
  have hkne : k ≠ c := by
    intro he
    subst he
    exact hcB (List.mem_of_find?_eq_some hkB)
  have hfind : (scanList ((c + 1) % P.length) P.length).find? (usableIdx t P m)
      = some k := by
    rw [hdecomp]
    exact find?_append_some _ hkB
  refine ⟨k, ?_, hkne⟩
  simp only [rrSelectAccount]
  rw [if_neg hlen, if_neg hclamp, hfind]

theorem rrSelect_none_of_no_usable (c : Nat) (t : Int) (P : List Account) (m : String)
    (h : usableIndices t P m = []) :
    (rrSelectAccount c t P m).1.selected = none := by
  by_cases hlen : P.length = 0
  · simp [rrSelectAccount, hlen]
  · have hfind : ∀ s, (scanList s P.length).find? (usableIdx t P m) = none := by
      intro s
      cases hf : (scanList s P.length).find? (usableIdx t P m) with
      | none => rfl
      | some k =>
          have hku := List.find?_some hf
          have hklt := mem_scanList_lt (List.mem_of_find?_eq_some hf)
          have hmem : k ∈ usableIndices t P m := mem_usableIndices.2 ⟨hklt, hku⟩
          rw [h] at hmem
          simp at hmem
    simp only [rrSelectAccount]
    rw [if_neg hlen, hfind]

/-- **C8**: over a pool with a usable account at the first call and at least
two usable accounts (for the target model) at the second, two consecutive
`selectAccount` calls on the round-robin strategy never return the same
account index: the first call selects some usable index `k1` and stores it
as the cursor, and the second call, scanning from just past that cursor with
wraparound, selects some `k2` with `k2 ≠ k1`; moreover whenever no account
is usable the strategy returns no account. -/
theorem rr_no_repeat (c₀ : Nat) (t₁ t₂ : Int) (pool : List Account) (modelId : String)
    (h₁ : 1 ≤ (usableIndices t₁ pool modelId).length)
    (h₂ : 2 ≤ (usableIndices t₂ (rrSelectAccount c₀ t₁ pool modelId).2.2 modelId).length) :
    (∃ k₁ k₂,
      (rrSelectAccount c₀ t₁ pool modelId).1.selected = some k₁ ∧
      (rrSelectAccount c₀ t₁ pool modelId).2.1 = k₁ ∧
      usableIdx t₁ pool modelId k₁ = true ∧
      (rrSelectAccount (rrSelectAccount c₀ t₁ pool modelId).2.1 t₂
          (rrSelectAccount c₀ t₁ pool modelId).2.2 modelId).1.selected = some k₂ ∧
      k₂ ≠ k₁) ∧
    (∀ (t : Int) (P : List Account) (c : Nat), usableIndices t P modelId = [] →
      (rrSelectAccount c t P modelId).1.selected = none) := by
  obtain ⟨k₁, hk1lt, hk1u, heq⟩ := rrSelect_some_of_usable c₀ t₁ pool modelId h₁
  have hlen2 : k₁ < (setLastUsed pool k₁ t₁).length := by
    rw [setLastUsed_length]
    exact hk1lt
  have h₂' : 2 ≤ (usableIndices t₂ (setLastUsed pool k₁ t₁) modelId).length := by
    rw [heq] at h₂
    exact h₂
  obtain ⟨k₂, hsel2, hne⟩ :=
    rrSelect_ne_cursor k₁ t₂ (setLastUsed pool k₁ t₁) modelId hlen2 h₂'
  refine ⟨⟨k₁, k₂, ?_, ?_, hk1u, ?_, hne⟩, ?_⟩
  · rw [heq]
  · rw [heq]
  · rw [heq]
    exact hsel2
  · intro t P c h
    exact rrSelect_none_of_no_usable c t P modelId h

/-- Witness for `rr_no_repeat` at a concrete two-account pool. -/
theorem rr_no_repeat_witness :
    1 ≤ (usableIndices 100 examplePool2 "m").length ∧
    2 ≤ (usableIndices 200 (rrSelectAccount 0 100 examplePool2 "m").2.2 "m").length ∧
    ((∃ k₁ k₂,
      (rrSelectAccount 0 100 examplePool2 "m").1.selected = some k₁ ∧
      (rrSelectAccount 0 100 examplePool2 "m").2.1 = k₁ ∧
      usableIdx 100 examplePool2 "m" k₁ = true ∧
      (rrSelectAccount (rrSelectAccount 0 100 examplePool2 "m").2.1 200
          (rrSelectAccount 0 100 examplePool2 "m").2.2 "m").1.selected = some k₂ ∧
      k₂ ≠ k₁) ∧
    (∀ (t : Int) (P : List Account) (c : Nat), usableIndices t P "m" = [] →
      (rrSelectAccount c t P "m").1.selected = none)) :=
  ⟨by decide, by decide, rr_no_repeat 0 100 200 examplePool2 "m" (by decide) (by decide)⟩

/-! ## C9: the converter pins the transport flags -/

/-- **C9**: for every Protocol-A request, `convertAnthropicToResponsesAPI`
produces a request with `store = false`, `stream = true` and
`parallel_tool_calls = true`; the inbound `stream` flag is never read (the
output is identical for every value of it, including an explicit
non-streaming request); `tools` is always an array, empty when the inbound
`tools` is absent; and `instructions` is always a string, empty when
`system` is absent. -/
theorem converter_pins_transport_flags (req : AnthropicRequest) (rand : List Char) :
    (convertAnthropicToResponsesAPI req rand).store = false ∧
    (convertAnthropicToResponsesAPI req rand).stream = true ∧
    (convertAnthropicToResponsesAPI req rand).parallel_tool_calls = true ∧
    (∀ b : Option Bool, convertAnthropicToResponsesAPI { req with stream := b } rand
        = convertAnthropicToResponsesAPI req rand) ∧
    (convertAnthropicToResponsesAPI { req with tools := none } rand).tools = [] ∧
    (convertAnthropicToResponsesAPI { req with system := none } rand).instructions = "" :=
  ⟨rfl, rfl, rfl, fun _ => rfl, rfl, rfl⟩

/-! ## C10: selection mutates nothing but the selected account's lastUsed -/

theorem setLastUsed_get? (P : List Account) (k : Nat) (t : Int) (j : Nat) :
    (setLastUsed P k t).get? j =
      if j = k then (P.get? j).map (fun a => { a with lastUsed := some t })
      else P.get? j := by
  unfold setLastUsed
  cases hg : P.get? k with
  | none =>
      by_cases hj : j = k
      · subst hj
        rw [if_pos rfl, hg]
        rfl
      · rw [if_neg hj]
  | some a =>
      by_cases hj : j = k
      · subst hj
        rw [if_pos rfl, List.get?_set_eq, hg]
        rfl
      · rw [if_neg hj]
        exact List.get?_set_ne _ _ (Ne.symm hj)

theorem rrSelect_pool_eq (c : Nat) (t : Int) (P : List Account) (m : String) :
    (rrSelectAccount c t P m).2.2 =
      match (rrSelectAccount c t P m).1.selected with
      | some k => setLastUsed P k t
      | none => P := by
  by_cases hlen : P.length = 0
  · simp [rrSelectAccount, hlen]
  · simp only [rrSelectAccount]
    rw [if_neg hlen]
    cases hf : (scanList (((if c ≥ P.length then 0 else c) + 1) % P.length) P.length).find?
        (usableIdx t P m) with
    | some k => rfl
    | none => rfl

theorem stickySelect_pool_eq (ci si : Nat) (t : Int) (P : List Account) (m : String) :
    (stickySelectAccount ci si t P m).2.2 =
      match (stickySelectAccount ci si t P m).1.selected with
      | some k => setLastUsed P k t
      | none => P := by
  by_cases hlen : P.length = 0
  · simp [stickySelectAccount, hlen]
  · simp only [stickySelectAccount]
    rw [if_neg hlen]
    cases hg : P.get? (min ci (P.length - 1)) with
    | none => rfl
    | some cur =>
        dsimp only
        by_cases hu : isAccountUsable t cur m = true
        · rw [if_pos hu]
        · rw [if_neg hu]
          cases hpn : (if usableIndices t P m ≠ [] then
              stickyPickNext t P (min ci (P.length - 1)) m else none) with
          | some k => rfl
          | none =>
              by_cases hsw : ((stickyShouldWait t cur m).1 = true ∧
                  (stickyShouldWait t cur m).2 ≤ 120000)
              · rw [if_pos hsw]
              · rw [if_neg hsw]

/-- **C10**: on either rotation strategy, a `selectAccount` call leaves the
pool unchanged except that, when an account is selected, the account at the
selected index gets `lastUsed := some now`; pointwise, every index other
than the selected one holds exactly its old account, and the update
preserves `isInvalid`, `enabled`, `cooldownUntil` and `modelRateLimits`. -/
theorem select_frame_effect :
    (∀ (c : Nat) (t : Int) (P : List Account) (m : String),
      (rrSelectAccount c t P m).2.2 =
        match (rrSelectAccount c t P m).1.selected with
        | some k => setLastUsed P k t
        | none => P) ∧
    (∀ (ci si : Nat) (t : Int) (P : List Account) (m : String),
      (stickySelectAccount ci si t P m).2.2 =
        match (stickySelectAccount ci si t P m).1.selected with
        | some k => setLastUsed P k t
        | none => P) ∧
    (∀ (P : List Account) (k : Nat) (t : Int) (j : Nat),
      (setLastUsed P k t).get? j =
        if j = k then (P.get? j).map (fun a => { a with lastUsed := some t })
        else P.get? j) ∧
    (∀ (a : Account) (t : Int),
      ({ a with lastUsed := some t } : Account).isInvalid = a.isInvalid ∧
      ({ a with lastUsed := some t } : Account).enabled = a.enabled ∧
      ({ a with lastUsed := some t } : Account).cooldownUntil = a.cooldownUntil ∧
      ({ a with lastUsed := some t } : Account).modelRateLimits = a.modelRateLimits) :=
  ⟨rrSelect_pool_eq, stickySelect_pool_eq, setLastUsed_get?,
    fun _ _ => ⟨rfl, rfl, rfl, rfl⟩⟩

end Gateway
